import Mathlib

/-!
# GitGrade heuristic analysis engine: embedding and verified properties

Shallow embedding of the analysis functions of `src/gitgrade_gemini.cpp`
(`run_security_scan`, `analyze_code_complexity`, `analyze_dependencies`,
`calculate_quality_score`, `check_readme_quality`, `estimate_test_coverage`).

Conventions of the embedding

* C++ `int` values are mathematical integers (`Int`); every count and every
  value converted to `int` is assumed to stay inside the `int` range, where the
  C++ arithmetic is defined.
* C++ `float` / `double` values are the rationals they denote.  Every
  floating-point operation is the exact rational operation followed by
  round-to-nearest, ties-to-even, into the IEEE 754 format of the C++ type
  (`binary32` for `float`, `binary64` for `double`), gradual underflow included;
  each operation is rounded on its own (no extended precision, no fused
  multiply-add).  Infinities and NaN (overflow, division by zero) lie outside
  the model.
* A file is its base name and its content (empty when it cannot be read); a
  directory walk is the list of the regular files it visits, in visiting order.
* A name looked up at the root is absent, or a file with some content (empty
  when the stream cannot be opened), or a directory, whose read through
  `std::istreambuf_iterator` throws `std::ios_base::failure`, or an entry whose
  status cannot be obtained (a symbolic link that loops), for which
  `fs::exists` throws `std::filesystem::filesystem_error`.  The test
  `fs::exists` and the read are two operations of the model.  A function that
  looks names up at the root returns `Except.ok` with its result, or
  `Except.error` with the exception that leaves it.
* Strings are sequences of characters standing for the bytes of the C++
  `std::string`.
* `std::map` and JSON objects are association lists sorted by key, which is the
  order in which the C++ iterates over them; an absent `languages` key behaves
  as the empty object.
-/

namespace GitGrade

/-! ## IEEE 754 rounding -/

/-- Least `k`, searched upwards from the third argument, with `n < 2 ^ 2 ^ k`;
the first argument bounds the number of steps. -/
def log2Width : Nat → Nat → Nat → Nat
  | 0, _, k => k
  | fuel + 1, n, k => if n < 2 ^ 2 ^ k then k else log2Width fuel n (k + 1)

/-- Binary descent: adds to `acc` the base-two logarithm of `n < 2 ^ 2 ^ j`. -/
def log2Desc : Nat → Nat → Nat → Nat
  | 0, _, acc => acc
  | j + 1, n, acc =>
    if 2 ^ 2 ^ j ≤ n then log2Desc j (n / 2 ^ 2 ^ j) (acc + 2 ^ j) else log2Desc j n acc

/-- Floor of the base-two logarithm of a positive natural number (`0` at `0`). -/
def log2n (n : Nat) : Nat := log2Desc (log2Width n n 0) n 0

/-- Floor of the base-two logarithm of `|x|` for a non-zero rational `x`. -/
def ilog2 (x : ℚ) : Int :=
  let n := x.num.natAbs
  let d := x.den
  let k : Int := (log2n n : Int) - (log2n d : Int)
  if 0 ≤ k then
    (if d * 2 ^ k.toNat ≤ n then k else k - 1)
  else
    (if d ≤ n * 2 ^ (-k).toNat then k else k - 1)

/-- The rational `2 ^ k` for an integer exponent `k`. -/
def pow2 (k : Int) : ℚ :=
  if 0 ≤ k then ((2 ^ k.toNat : Nat) : ℚ) else 1 / ((2 ^ (-k).toNat : Nat) : ℚ)

/-- Nearest integer to `x`, a tie going to the even neighbour. -/
def roundHalfEven (x : ℚ) : Int :=
  let f := ⌊x⌋
  let r := x - f
  if 2 * r < 1 then f
  else if 1 < 2 * r then f + 1
  else if f % 2 = 0 then f else f + 1

/-- A binary floating-point format: `prec` significand bits, and `qmin` the
exponent of the smallest positive (subnormal) value. -/
structure FloatFormat where
  prec : Nat
  qmin : Int

/-- IEEE 754 binary32, the C++ `float`. -/
def binary32 : FloatFormat := ⟨24, -149⟩

/-- IEEE 754 binary64, the C++ `double`. -/
def binary64 : FloatFormat := ⟨53, -1074⟩

/-- Exponent of the unit in the last place used to represent `x ≠ 0`. -/
def quantum (fmt : FloatFormat) (x : ℚ) : Int :=
  max (ilog2 x - ((fmt.prec : Int) - 1)) fmt.qmin

/-- Round-to-nearest-even of the rational `x` into the format `fmt`. -/
def rne (fmt : FloatFormat) (x : ℚ) : ℚ :=
  if x = 0 then 0
  else (roundHalfEven (x / pow2 (quantum fmt x)) : ℚ) * pow2 (quantum fmt x)

/-- Conversion `(int)x` of a floating-point value: truncation towards zero. -/
def truncToInt (x : ℚ) : Int := if 0 ≤ x then ⌊x⌋ else ⌈x⌉

/-- The `double` literal `0.3`. -/
def d0_3 : ℚ := rne binary64 (3 / 10)

/-- The `double` literal `0.2`. -/
def d0_2 : ℚ := rne binary64 (2 / 10)

/-- Conversion of an `int` to `float`. -/
def intToFloat (n : Int) : ℚ := rne binary32 (n : ℚ)

/-- Conversion of an `int` to `double`. -/
def intToDouble (n : Int) : ℚ := rne binary64 (n : ℚ)

/-! ## Regular expressions (`std::regex`, ECMAScript grammar) -/

/-- Abstract syntax of the regular expressions used by the pattern registries. -/
inductive Regex where
  | empty : Regex
  | char (p : Char → Bool) : Regex
  | wordBoundary : Regex
  | seq (a b : Regex) : Regex
  | alt (a b : Regex) : Regex
  | star (a : Regex) : Regex

/-- Characters of the class `\w`. -/
def isWordChar (c : Char) : Bool := c.isAlphanum || c == '_'

/-- Characters of the class `\s` (`isspace` in the C locale). -/
def isSpaceChar (c : Char) : Bool :=
  c == ' ' || c == '\t' || c == '\n' || c == '\r' || c.toNat == 11 || c.toNat == 12

/-- Characters matched by `.`: everything but the line terminators. -/
def isDotChar (c : Char) : Bool := !(c == '\n' || c == '\r')

/-- Whether position `i` of `s` holds a word character. -/
def wordAt (s : List Char) (i : Nat) : Bool :=
  match s.get? i with
  | some c => isWordChar c
  | none => false

/-- Whether `\b` holds at position `i` of `s`. -/
def atWordBoundary (s : List Char) (i : Nat) : Bool :=
  (if i = 0 then false else wordAt s (i - 1)) != wordAt s i

/-- End positions of the iterations of a step relation started at `i`; every
iteration after the first position must consume input, so `fuel` above the
remaining length loses nothing. -/
def starEnds (step : Nat → List Nat) : Nat → Nat → List Nat
  | 0, i => [i]
  | fuel + 1, i => i :: ((step i).filter (fun j => i < j)).flatMap (starEnds step fuel)

/-- All positions `j` such that `s[i..j)` is matched by the expression. -/
def Regex.ends (s : List Char) : Regex → Nat → List Nat
  | .empty, i => [i]
  | .char p, i =>
    match s.get? i with
    | some c => if p c then [i + 1] else []
    | none => []
  | .wordBoundary, i => if atWordBoundary s i then [i] else []
  | .seq a b, i => (a.ends s i).flatMap (fun j => b.ends s j)
  | .alt a b, i => a.ends s i ++ b.ends s i
  | .star a, i => starEnds (fun j => a.ends s j) (s.length + 1) i

/-- The function `std::regex_search`: some substring of `s` matches. -/
def regex_search (s : List Char) (r : Regex) : Bool :=
  (List.range (s.length + 1)).any (fun i => !(r.ends s i).isEmpty)

namespace Regex

/-- A literal character. -/
def chr (c : Char) : Regex := .char (fun x => x == c)

/-- A literal character under `std::regex::icase`. -/
def chrI (c : Char) : Regex := .char (fun x => x.toLower == c.toLower)

/-- Concatenation of a list of expressions. -/
def cat : List Regex → Regex
  | [] => .empty
  | [r] => r
  | r :: rs => .seq r (cat rs)

/-- Alternation of a non-empty list of expressions. -/
def any : List Regex → Regex
  | [] => .char (fun _ => false)
  | [r] => r
  | r :: rs => .alt r (any rs)

/-- A literal string. -/
def lit (s : String) : Regex := cat (s.data.map chr)

/-- A literal string under `std::regex::icase`. -/
def litI (s : String) : Regex := cat (s.data.map chrI)

/-- The quantifier `?`. -/
def opt (r : Regex) : Regex := .alt r .empty

/-- The quantifier `+`. -/
def plus (r : Regex) : Regex := .seq r (.star r)

/-- The quantifier `{n}`. -/
def rep : Nat → Regex → Regex
  | 0, _ => .empty
  | n + 1, r => .seq r (rep n r)

/-- The quantifier `{n,}`. -/
def atLeast (n : Nat) (r : Regex) : Regex := .seq (rep n r) (.star r)

/-- The quantifier `{0,n}`. -/
def upTo : Nat → Regex → Regex
  | 0, _ => .empty
  | n + 1, r => opt (.seq r (upTo n r))

/-- The quantifier `{m,n}` with `m ≤ n`. -/
def between (m n : Nat) (r : Regex) : Regex := .seq (rep m r) (upTo (n - m) r)

/-- The class `\w`. -/
def word : Regex := .char isWordChar

/-- The class `\s`. -/
def space : Regex := .char isSpaceChar

/-- The class `[0-9]`. -/
def digit : Regex := .char Char.isDigit

/-- The wildcard `.`. -/
def dot : Regex := .char isDotChar

end Regex

/-! ## Files, lines and JSON objects -/

/-- A regular file met by a directory walk: its base name and its content. -/
structure FileEntry where
  filename : String
  content : String
  deriving DecidableEq

/-- Worker of `getlines`; `acc` holds the current line, reversed. -/
def getlinesAux : List Char → List Char → List (List Char)
  | [], acc => if acc.isEmpty then [] else [acc.reverse]
  | c :: cs, acc => if c = '\n' then acc.reverse :: getlinesAux cs [] else getlinesAux cs (c :: acc)

/-- The lines that the loop `while (std::getline(file, line))` reads from a
content: the newline-terminated lines, and a last unterminated one if it
is not empty. -/
def getlines (content : String) : List (List Char) := getlinesAux content.data []

/-- Position of the last `.` of a name, if any. -/
def lastDot (name : List Char) : Option Nat :=
  (List.range name.length).foldl (fun r i => if name.get? i = some '.' then some i else r) none

/-- The function `std::filesystem::path::extension` on a base name: the suffix
from the last dot, empty for `.`, `..`, names without a dot and names whose
only dot is the leading one. -/
def extension (filename : String) : String :=
  if filename = "." ∨ filename = ".." then ""
  else
    match lastDot filename.data with
    | none => ""
    | some 0 => ""
    | some i => String.mk (filename.data.drop i)

/-- The test `line.find(pat) != npos`. -/
def containsSub (pat : List Char) : List Char → Bool
  | [] => pat.isEmpty
  | c :: cs => pat.isPrefixOf (c :: cs) || containsSub pat cs

/-- A `std::map` or JSON object with string keys: an association list kept
sorted by key. -/
abbrev StrMap (α : Type) := List (String × α)

/-- The entry `m[k]` updated by `f`, created from `dflt` when absent. -/
def StrMap.modify {α : Type} (k : String) (dflt : α) (f : α → α) : StrMap α → StrMap α
  | [] => [(k, f dflt)]
  | (k', v) :: rest =>
    if k = k' then (k', f v) :: rest
    else if k < k' then (k, f dflt) :: (k', v) :: rest
    else (k', v) :: StrMap.modify k dflt f rest

/-- The assignment `m[k] = v`. -/
def StrMap.set {α : Type} (k : String) (v : α) (m : StrMap α) : StrMap α :=
  StrMap.modify k v (fun _ => v) m

/-! ## Feature 2: security audit -/

/-- One entry of the array returned by `run_security_scan`. -/
structure Finding where
  file : String
  line : Int
  issue : String
  severity : String
  deriving DecidableEq

/-- A quote character, the class `['"]`. -/
def isQuote (c : Char) : Bool := c == '\'' || c == '"'

/-- The class `[a-zA-Z0-9_\-]`. -/
def isKeyChar (c : Char) : Bool := c.isAlphanum || c == '_' || c == '-'

/-- The class `[A-Za-z0-9/+=]`. -/
def isBase64Char (c : Char) : Bool := c.isAlphanum || c == '/' || c == '+' || c == '='

open Regex in
/-- The registry `security_patterns`, in the key order of the `std::map`. -/
def security_patterns : StrMap Regex :=
  [ ("API Key",
      cat [any [lit "AIza", lit "sk-proj-", lit "sk-", lit "AKIA"], atLeast 20 (.char isKeyChar)]),
    ("AWS Secret",
      cat [lit "aws_secret_access_key", .star space, chr '=', .star space, opt (.char isQuote),
        rep 40 (.char isBase64Char), opt (.char isQuote)]),
    ("Database Connection",
      cat [any [litI "mongodb", litI "mysql", litI "postgresql"], lit "://",
        plus (.char (fun c => !isSpaceChar c))]),
    ("Hardcoded IP",
      cat [.wordBoundary, rep 3 (.seq (between 1 3 digit) (chr '.')), between 1 3 digit,
        .wordBoundary]),
    ("JWT Token",
      cat [lit "eyJ", .star (.char isKeyChar), chr '.', lit "eyJ", .star (.char isKeyChar),
        chr '.', .star (.char isKeyChar)]),
    ("Password in Code",
      cat [any [litI "password", litI "passwd", litI "pwd"], .star space, chr '=', .star space,
        .char isQuote, atLeast 3 (.char (fun c => !isQuote c)), .char isQuote]),
    ("Private Key",
      cat [lit "-----BEGIN ", opt (any [lit "RSA ", lit "EC ", lit "DSA "]),
        lit "PRIVATE KEY-----"]) ]

/-- The findings of one line: one per matching registry entry. -/
def scanSecurityLine (filename : String) (line_num : Int) (line : List Char) : List Finding :=
  security_patterns.filterMap (fun entry =>
    if regex_search line entry.2 then
      some { file := filename, line := line_num, issue := entry.1 ++ " Detected",
             severity := "HIGH" }
    else none)

/-- The `while (std::getline ...)` loop of `run_security_scan`; `line_num` is
the number of lines read so far. -/
def scanSecurityLines (filename : String) : Int → List (List Char) → List Finding
  | _, [] => []
  | line_num, line :: rest =>
    scanSecurityLine filename (line_num + 1) line ++ scanSecurityLines filename (line_num + 1) rest

/-- The function `run_security_scan` over the regular files of the tree. -/
def run_security_scan (files : List FileEntry) : List Finding :=
  files.flatMap (fun entry => scanSecurityLines entry.filename 0 (getlines entry.content))

/-! ## Feature 3: code complexity analyzer -/

/-- The counters of `struct FileStats`, all initially zero. -/
structure FileStats where
  lines : Int := 0
  blank_lines : Int := 0
  comment_lines : Int := 0
  functions : Int := 0
  classes : Int := 0
  deriving DecidableEq

/-- One value of the `languages` object of the complexity result. -/
structure LanguageStats where
  total_lines : Int
  code_lines : Int
  blank_lines : Int
  comment_lines : Int
  functions : Int
  classes : Int
  comment_ratio : ℚ
  deriving DecidableEq

/-- The result of `analyze_code_complexity`. -/
structure ComplexityResult where
  total_files : Int
  languages : StrMap LanguageStats
  deriving DecidableEq

open Regex in
/-- The entry `patterns["function"]`. -/
def function_patterns : List Regex :=
  [ cat [.wordBoundary, lit "def", plus space, plus word],
    cat [plus word, plus space, plus word, .star space, chr '(',
      .star (.char (fun c => !(c == ')'))), chr ')', .star space, chr '{'] ]

open Regex in
/-- The entry `patterns["class"]`. -/
def class_patterns : List Regex :=
  [ cat [.wordBoundary, lit "class", plus space, plus word],
    cat [.wordBoundary, lit "struct", plus space, plus word] ]

/-- The test `line.find_first_not_of(" \t\r\n") == npos`. -/
def isBlankLine (line : List Char) : Bool :=
  line.all (fun c => c == ' ' || c == '\t' || c == '\r' || c == '\n')

/-- The test for a comment marker `//`, `#` or `/*` anywhere in the line. -/
def hasCommentMarker (line : List Char) : Bool :=
  containsSub "//".data line || containsSub "#".data line || containsSub "/*".data line

/-- Number of patterns of a list found in the line. -/
def countMatches (patterns : List Regex) (line : List Char) : Int :=
  ((patterns.filter (fun p => regex_search line p)).length : Int)

/-- One iteration of the line loop of `analyze_code_complexity`. -/
def scanLine (stats : FileStats) (line : List Char) : FileStats :=
  let stats := { stats with lines := stats.lines + 1 }
  if isBlankLine line then { stats with blank_lines := stats.blank_lines + 1 }
  else
    let stats :=
      if hasCommentMarker line then { stats with comment_lines := stats.comment_lines + 1 }
      else stats
    let stats := { stats with functions := stats.functions + countMatches function_patterns line }
    { stats with classes := stats.classes + countMatches class_patterns line }

/-- The line loop over one file, applied to the counters of its extension. -/
def scanFile (content : String) (stats : FileStats) : FileStats :=
  (getlines content).foldl scanLine stats

/-- The state of the directory walk of `analyze_code_complexity`. -/
structure ComplexityState where
  language_stats : StrMap FileStats := []
  total_files : Int := 0

/-- One iteration of the directory walk: files without extension are skipped. -/
def complexityStep (st : ComplexityState) (entry : FileEntry) : ComplexityState :=
  let ext := extension entry.filename
  if ext.isEmpty then st
  else
    { total_files := st.total_files + 1,
      language_stats := StrMap.modify ext {} (scanFile entry.content) st.language_stats }

/-- The value `(float)comment_lines / lines`, or `0.0` for no line. -/
def commentRatio (stats : FileStats) : ℚ :=
  if 0 < stats.lines then
    rne binary32 (intToFloat stats.comment_lines / intToFloat stats.lines)
  else 0

/-- The JSON record written for one extension. -/
def languageRecord (stats : FileStats) : LanguageStats :=
  { total_lines := stats.lines,
    code_lines := stats.lines - stats.blank_lines - stats.comment_lines,
    blank_lines := stats.blank_lines,
    comment_lines := stats.comment_lines,
    functions := stats.functions,
    classes := stats.classes,
    comment_ratio := commentRatio stats }

/-- The function `analyze_code_complexity` over the regular files of the tree. -/
def analyze_code_complexity (files : List FileEntry) : ComplexityResult :=
  let st := files.foldl complexityStep {}
  { total_files := st.total_files,
    languages := st.language_stats.map (fun kv => (kv.1, languageRecord kv.2)) }

/-! ## Feature 4: dependency analyzer -/

/-- One value of the `package_managers` object. -/
structure ManagerInfo where
  found : Bool
  file : String
  estimated_dependencies : Int
  deriving DecidableEq

/-- The result of `analyze_dependencies`. -/
structure DependencyResult where
  package_managers : StrMap ManagerInfo := []
  total_dependencies : Int := 0
  deriving DecidableEq

/-- What stands under a name at the root of the tree: nothing (`absent`, a
dangling symbolic link included), a file that reads as `content` (empty when
the stream cannot be opened), a directory (a symbolic link to one included),
or an entry whose status cannot be obtained (`inaccessible`: a symbolic link
that loops).  Entries whose read does not end (a FIFO without writer, an
endless device) lie outside the model. -/
inductive RootEntry where
  | absent
  | file (content : String)
  | directory
  | inaccessible
  deriving DecidableEq

/-- The directory at the root of the tree, as a lookup by name. -/
abbrev RootDir := String → RootEntry

/-- The exceptions that leave the functions reading the root:
`std::filesystem::filesystem_error` and `std::ios_base::failure`, with the name
looked up. -/
inductive Failure where
  | filesystem_error (file : String)
  | ios_failure (file : String)
  deriving DecidableEq

/-- The call `fs::exists(path + "/" + name)`: false for a name that is absent,
true for a file or a directory, an exception when the status of the entry
cannot be obtained. -/
def fs_exists (root : RootDir) (name : String) : Except Failure Bool :=
  match root name with
  | .absent => .ok false
  | .file _ => .ok true
  | .directory => .ok true
  | .inaccessible => .error (.filesystem_error name)

/-- The read `std::ifstream file(path)` followed by
`std::string content((std::istreambuf_iterator<char>(file)), std::istreambuf_iterator<char>())`:
the content of a file, an exception for a directory, nothing when the stream
cannot be opened. -/
def readContent (root : RootDir) (name : String) : Except Failure String :=
  match root name with
  | .file content => .ok content
  | .directory => .error (.ios_failure name)
  | .absent => .ok ""
  | .inaccessible => .ok ""

/-- The table `package_files`, in the key order of the `std::map`. -/
def package_files : StrMap String :=
  [ ("cargo", "Cargo.toml"), ("gradle", "build.gradle"), ("maven", "pom.xml"),
    ("npm", "package.json"), ("pip", "requirements.txt") ]

/-- The value `std::count(content.begin(), content.end(), '\n')`. -/
def newlineCount (content : String) : Int := (content.data.count '\n' : Int)

/-- One iteration of the loop of `analyze_dependencies`: nothing happens for a
manifest that does not exist; one that exists is read and recorded with its
count of newline characters; an exception of `fs::exists` or of the read
leaves the iteration. -/
def dependencyStep (root : RootDir) (deps : DependencyResult) (entry : String × String) :
    Except Failure DependencyResult :=
  match fs_exists root entry.2 with
  | .error failure => .error failure
  | .ok false => .ok deps
  | .ok true =>
    match readContent root entry.2 with
    | .error failure => .error failure
    | .ok content =>
      let dep_count := newlineCount content
      .ok { package_managers :=
              StrMap.set entry.1
                { found := true, file := entry.2, estimated_dependencies := dep_count }
                deps.package_managers,
            total_dependencies := deps.total_dependencies + dep_count }

/-- The loop of `analyze_dependencies` over the entries of the table that are
left; an exception ends it. -/
def dependencyLoop (root : RootDir) :
    List (String × String) → DependencyResult → Except Failure DependencyResult
  | [], deps => .ok deps
  | entry :: rest, deps =>
    match dependencyStep root deps entry with
    | .error failure => .error failure
    | .ok next => dependencyLoop root rest next

/-- The function `analyze_dependencies` on the root directory. -/
def analyze_dependencies (root : RootDir) : Except Failure DependencyResult :=
  dependencyLoop root package_files {}

/-! ## Feature 5: code quality metrics -/

/-- The `breakdown` object of the quality result. -/
structure Breakdown where
  security_score : Int
  security_issues : Int
  documentation_score : Int
  documentation_comment_ratio : ℚ
  organization_score : Int
  organization_files : Int
  dependency_management_score : Int
  deriving DecidableEq

/-- The result of `calculate_quality_score`. -/
structure QualityResult where
  overall_score : Int
  breakdown : Breakdown
  deriving DecidableEq

/-- The loop summing `stats["comment_ratio"].get<float>()` in `float`. -/
def sumCommentRatios (languages : StrMap LanguageStats) : ℚ :=
  languages.foldl (fun acc kv => rne binary32 (acc + rne binary32 kv.2.comment_ratio)) 0

/-- The variable `avg_comment_ratio` after the loop and the division. -/
def avgCommentRatio (languages : StrMap LanguageStats) : ℚ :=
  let lang_count : Int := languages.length
  if 0 < lang_count then rne binary32 (sumCommentRatios languages / intToFloat lang_count)
  else sumCommentRatios languages

/-- The `double` expression assigned to `final_score`, summed left to right. -/
def weightedSum (score doc_score org_score dep_score : Int) : ℚ :=
  rne binary64
    (rne binary64
      (rne binary64
        (rne binary64 (intToDouble score * d0_3) + rne binary64 (intToDouble doc_score * d0_2))
        + rne binary64 (intToDouble org_score * d0_3))
      + rne binary64 (intToDouble dep_score * d0_2))

/-- The function `calculate_quality_score`. -/
def calculate_quality_score (complexity : ComplexityResult) (security : List Finding)
    (dependencies : DependencyResult) : QualityResult :=
  let score : Int := 100
  let security_issues : Int := security.length
  let security_penalty : Int := min 30 (security_issues * 5)
  let score := score - security_penalty
  let avg_comment_ratio := avgCommentRatio complexity.languages
  let doc_score : Int := min 100 (truncToInt (rne binary32 (avg_comment_ratio * intToFloat 500)))
  let total_files := complexity.total_files
  let org_score : Int := if total_files > 50 then 70 else (if total_files > 20 then 85 else 100)
  let has_deps : Bool := decide (dependencies.total_dependencies > 0)
  let dep_score : Int := if has_deps then 100 else 80
  let final_score : Int := truncToInt (weightedSum score doc_score org_score dep_score)
  { overall_score := min 100 (max 0 final_score),
    breakdown :=
      { security_score := 100 - security_penalty,
        security_issues := security_issues,
        documentation_score := doc_score,
        documentation_comment_ratio := avg_comment_ratio,
        organization_score := org_score,
        organization_files := total_files,
        dependency_management_score := dep_score } }

/-! ## Feature 8: README quality checker -/

/-- The result of `check_readme_quality`. -/
structure ReadmeQuality where
  «exists» : Bool
  score : Int
  missing_sections : List String
  deriving DecidableEq

/-- The vector `readme_names`, in the order in which the candidates are tried. -/
def readme_names : List String := ["README.md", "README.MD", "readme.md", "README.txt"]

open Regex in
/-- The vector `sections`; every pattern is compiled with `std::regex::icase`. -/
def readme_sections : List (String × Regex) :=
  [ ("Title/Description", cat [chrI '#', plus space, plus word]),
    ("Installation", litI "install"),
    ("Usage", any [litI "usage", litI "example"]),
    ("Contributing", litI "contribut"),
    ("License", litI "license"),
    ("Dependencies", any [litI "depend", litI "requirement"]) ]

/-- One iteration of the loop over `sections`: the state is `found_sections`
and the array `missing_sections`. -/
def sectionStep (content : List Char) (st : Int × List String) (sec : String × Regex) :
    Int × List String :=
  if regex_search content sec.2 then (st.1 + 1, st.2) else (st.1, st.2 ++ [sec.1])

/-- The section scan of the README content, run once a candidate exists. -/
def scanReadme (content : String) : ReadmeQuality :=
  let st := readme_sections.foldl (sectionStep content.data) (0, [])
  { «exists» := true,
    score := (st.1 * 100) / (readme_sections.length : Int),
    missing_sections := st.2 }

/-- The loop over the candidates that are left: the first one for which
`fs::exists` is true (`readme_path`), `none` when there is none (`exists`
stays false); an exception of `fs::exists` ends the loop. -/
def findReadme (root : RootDir) : List String → Except Failure (Option String)
  | [] => .ok none
  | name :: rest =>
    match fs_exists root name with
    | .error failure => .error failure
    | .ok true => .ok (some name)
    | .ok false => findReadme root rest

/-- The function `check_readme_quality` on the root directory: the fixed
result when no candidate exists; otherwise the first existing candidate is
read and its content is scanned. -/
def check_readme_quality (root : RootDir) : Except Failure ReadmeQuality :=
  match findReadme root readme_names with
  | .error failure => .error failure
  | .ok none =>
    .ok { «exists» := false, score := 0, missing_sections := ["README file not found"] }
  | .ok (some readme_path) =>
    match readContent root readme_path with
    | .error failure => .error failure
    | .ok content => .ok (scanReadme content)

/-! ## Feature 9: test coverage estimator -/

/-- The result of `estimate_test_coverage`. -/
structure TestCoverage where
  test_files : Int
  code_files : Int
  estimated_coverage : ℚ
  has_tests : Bool
  deriving DecidableEq

open Regex in
/-- The vector `test_patterns`. -/
def test_patterns : List Regex :=
  [ cat [lit "test_", .star dot, chr '.', any [lit "py", lit "js", lit "cpp", lit "java"]],
    cat [.star dot, lit "_test.", any [lit "py", lit "js", lit "cpp", lit "java"]],
    cat [.star dot, lit ".test.", any [lit "js", lit "ts"]],
    cat [.star dot, lit ".spec.", any [lit "js", lit "ts"]] ]

/-- The extension test selecting the code files. -/
def isCodeExtension (ext : String) : Bool :=
  ext == ".py" || ext == ".js" || ext == ".cpp" || ext == ".java" || ext == ".ts"

/-- The inner loop: the file name matches one of the test patterns. -/
def matchesTestPattern (filename : String) : Bool :=
  test_patterns.any (fun p => regex_search filename.data p)

/-- The counters `(test_files, total_code_files)` of the directory walk. -/
def coverageStep (counts : Int × Int) (entry : FileEntry) : Int × Int :=
  if isCodeExtension (extension entry.filename) then
    (if matchesTestPattern entry.filename then counts.1 + 1 else counts.1, counts.2 + 1)
  else counts

/-- The value `(float)test_files / total_code_files * 100`, or `0`. -/
def coverageOf (test_files total_code_files : Int) : ℚ :=
  if 0 < total_code_files then
    rne binary32
      (rne binary32 (intToFloat test_files / intToFloat total_code_files) * intToFloat 100)
  else 0

/-- The function `estimate_test_coverage` over the regular files of the tree. -/
def estimate_test_coverage (files : List FileEntry) : TestCoverage :=
  let counts := files.foldl coverageStep (0, 0)
  { test_files := counts.1,
    code_files := counts.2,
    estimated_coverage := coverageOf counts.1 counts.2,
    has_tests := decide (0 < counts.1) }

/-! ## Inputs and auxiliary notions used in the statements -/

/-- The record written for a manifest that exists. -/
def manifestInfo (filename content : String) : ManagerInfo :=
  { found := true, file := filename, estimated_dependencies := newlineCount content }

/-- A file content made of newline-terminated lines followed by an unterminated tail. -/
def linesContent (lines : List String) (tail : String) : String :=
  String.mk (lines.flatMap (fun l => l.data ++ ['\n']) ++ tail.data)

/-- A root directory holding a single entry, a file. -/
def singleFileRoot (name content : String) : RootDir :=
  fun n => if n = name then .file content else .absent

/-- A root directory without any entry. -/
def emptyRoot : RootDir := fun _ => .absent

/-- A root directory whose single entry is a directory. -/
def singleDirectoryRoot (name : String) : RootDir :=
  fun n => if n = name then .directory else .absent

/-- A root directory whose single entry is a symbolic link that loops. -/
def symlinkLoopRoot (name : String) : RootDir :=
  fun n => if n = name then .inaccessible else .absent

/-- The root of the C5 counterexample: a `package.json` without any newline. -/
def bareManifestRoot : RootDir := singleFileRoot "package.json" "name: demo"

/-- The record reported for a file of four lines, two blank, one commented. -/
def commentedStats : LanguageStats :=
  { total_lines := 4, code_lines := 1, blank_lines := 2, comment_lines := 1,
    functions := 0, classes := 0, comment_ratio := 1 / 4 }

/-- A complexity result: 30 files, one language with comment ratio `1/4`. -/
def sampleComplexity : ComplexityResult :=
  { total_files := 30, languages := [(".py", commentedStats)] }

/-- A security finding. -/
def apiKeyFinding : Finding :=
  { file := "a.py", line := 3, issue := "API Key Detected", severity := "HIGH" }

/-- Two security findings. -/
def sampleFindings : List Finding :=
  [ apiKeyFinding,
    { file := "b.py", line := 7, issue := "Hardcoded IP Detected", severity := "HIGH" } ]

/-- The chain of three additions, on the exact products of the outer weights. -/
def sumChain (a c b : Int) (y : ℚ) : ℚ :=
  rne binary64 (rne binary64 (rne binary64 (3 * (a : ℚ) / 2 + y) + 3 * (c : ℚ) / 2) + (b : ℚ))

/-- A complexity result: one file of 256 lines, one of them with a comment
marker, so that the comment ratio is `1/256`. -/
def sparseComplexity : ComplexityResult :=
  { total_files := 1,
    languages := [(".py", { total_lines := 256, code_lines := 255, blank_lines := 0,
                            comment_lines := 1, functions := 0, classes := 0,
                            comment_ratio := 1 / 256 })] }

/-- A dependency result with three estimated dependencies. -/
def sampleDependencies : DependencyResult :=
  { package_managers :=
      [("npm", { found := true, file := "package.json", estimated_dependencies := 3 })],
    total_dependencies := 3 }

/-- The overall score as claim C1 words it: the weighted sum of the four
reported sub-scores, rounded to the nearest integer and clamped. -/
def claimedOverallScore (b : Breakdown) : Int :=
  min 100 (max 0 (round ((3 / 10 : ℚ) * b.security_score + (2 / 10 : ℚ) * b.documentation_score
    + (3 / 10 : ℚ) * b.organization_score + (2 / 10 : ℚ) * b.dependency_management_score)))

/-- The documentation score as claim C2 words it: `min(100, round(500 × mean))`
for the exact mean of the ratios, `0` for no ratio. -/
def claimedDocumentationScore (ratios : List ℚ) : Int :=
  min 100 (round (500 * (if ratios.isEmpty then 0 else ratios.sum / (ratios.length : ℚ))))

/-- Sum of `float` values accumulated from left to right in `float`. -/
def floatSum (xs : List ℚ) : ℚ := xs.foldl (fun acc x => rne binary32 (acc + x)) 0

/-- Mean in `float`: the `float` sum divided by the count, `0` for no value. -/
def floatMean (xs : List ℚ) : ℚ :=
  if xs.isEmpty then 0 else rne binary32 (floatSum xs / intToFloat (xs.length : Int))

/-- A complexity result with two languages, of comment ratios `1/4` and `1/256`. -/
def twoLanguages : ComplexityResult :=
  { total_files := 2, languages := (".c", commentedStats) :: sparseComplexity.languages }

/-- A complexity result of 60 files in two languages without any comment line. -/
def uncommentedComplexity : ComplexityResult :=
  { total_files := 60,
    languages :=
      [(".js", languageRecord { lines := 900, blank_lines := 100, functions := 40 }),
       (".py", languageRecord { lines := 1500, blank_lines := 200, functions := 75, classes := 9 })] }

/-- A root with `README.MD` and `readme.md` but no `README.md`. -/
def twoReadmeRoot : RootDir :=
  fun name =>
    if name = "README.MD" then .file "# Demo\nInstall with pip.\n"
    else if name = "readme.md" then .file "license"
    else .absent

/-- A root where `README.md` is a directory and `README.MD` a file. -/
def directoryReadmeRoot : RootDir :=
  fun name =>
    if name = "README.md" then .directory
    else if name = "README.MD" then .file "# Demo\n"
    else .absent

/-- Component-wise sum of two records of counters. -/
def FileStats.add (a b : FileStats) : FileStats :=
  { lines := a.lines + b.lines,
    blank_lines := a.blank_lines + b.blank_lines,
    comment_lines := a.comment_lines + b.comment_lines,
    functions := a.functions + b.functions,
    classes := a.classes + b.classes }

/-- The counters of one file: the line loop run on fresh counters. -/
def fileCounters (entry : FileEntry) : FileStats := scanFile entry.content {}

/-- The files of a walk that have a given extension. -/
def filesWithExtension (files : List FileEntry) (ext : String) : List FileEntry :=
  files.filter (fun entry => decide (extension entry.filename = ext))

/-- Component-wise sum of a list of records of counters. -/
def sumCounters (stats : List FileStats) : FileStats :=
  { lines := (stats.map (fun s => s.lines)).sum,
    blank_lines := (stats.map (fun s => s.blank_lines)).sum,
    comment_lines := (stats.map (fun s => s.comment_lines)).sum,
    functions := (stats.map (fun s => s.functions)).sum,
    classes := (stats.map (fun s => s.classes)).sum }

/-- The sum of the per-file counters of the files with a given extension. -/
def extensionCounters (files : List FileEntry) (ext : String) : FileStats :=
  sumCounters ((filesWithExtension files ext).map fileCounters)

/-- The first value stored under a key of an association list. -/
def StrMap.lookup {α : Type} (k : String) : StrMap α → Option α
  | [] => none
  | (k', v) :: rest => if k = k' then some v else StrMap.lookup k rest

/-- A walk over four files, one of them without extension. -/
def sampleWalk : List FileEntry :=
  [ ⟨"a.py", "# c\ndef f(x):\n  return 1\n"⟩, ⟨"b.cpp", "int main() \x7b\n\x7d\n"⟩,
    ⟨"README", "text\n"⟩, ⟨"c.py", "\nclass A:\n"⟩ ]

/-- The files of `sampleWalk` met in another order. -/
def sampleWalkReordered : List FileEntry :=
  [ ⟨"c.py", "\nclass A:\n"⟩, ⟨"README", "text\n"⟩, ⟨"a.py", "# c\ndef f(x):\n  return 1\n"⟩,
    ⟨"b.cpp", "int main() \x7b\n\x7d\n"⟩ ]

/-! # Theorems -/

/-! ## Base-two logarithms -/

theorem log2Width_spec (fuel n k : Nat) (h : n < 2 ^ 2 ^ (k + fuel)) :
    n < 2 ^ 2 ^ log2Width fuel n k := by
  induction fuel generalizing k with
  | zero => simpa [log2Width] using h
  | succ f ih =>
    unfold log2Width
    by_cases hk : n < 2 ^ 2 ^ k
    · simp only [hk, if_true]
    · simp only [hk, if_false]
      apply ih
      have : k + 1 + f = k + (f + 1) := by omega
      rw [this]
      exact h

theorem log2Desc_spec (j : Nat) : ∀ n acc : Nat, 1 ≤ n → n < 2 ^ 2 ^ j →
    ∃ e, log2Desc j n acc = acc + e ∧ 2 ^ e ≤ n ∧ n < 2 ^ (e + 1) := by
  induction j with
  | zero =>
    intro n acc h1 h2
    refine ⟨0, rfl, ?_, ?_⟩
    · simpa using h1
    · simpa using h2
  | succ j ih =>
    intro n acc h1 h2
    unfold log2Desc
    have hpos : 0 < 2 ^ 2 ^ j := Nat.pow_pos (by decide)
    by_cases hc : 2 ^ 2 ^ j ≤ n
    · simp only [hc, if_true]
      have hm1 : 1 ≤ n / 2 ^ 2 ^ j := (Nat.one_le_div_iff hpos).mpr hc
      have hsq : 2 ^ 2 ^ (j + 1) = 2 ^ 2 ^ j * 2 ^ 2 ^ j := by
        rw [← pow_add, pow_succ, mul_two]
      have hm2 : n / 2 ^ 2 ^ j < 2 ^ 2 ^ j := by
        rw [Nat.div_lt_iff_lt_mul hpos]
        rw [hsq] at h2
        exact h2
      obtain ⟨e, he, hlo, hhi⟩ := ih (n / 2 ^ 2 ^ j) (acc + 2 ^ j) hm1 hm2
      refine ⟨2 ^ j + e, ?_, ?_, ?_⟩
      · rw [he]; omega
      · rw [pow_add]
        calc 2 ^ 2 ^ j * 2 ^ e ≤ 2 ^ 2 ^ j * (n / 2 ^ 2 ^ j) := Nat.mul_le_mul_left _ hlo
          _ ≤ n := Nat.mul_div_le n _
      · have h3 : n < 2 ^ 2 ^ j * (n / 2 ^ 2 ^ j + 1) := Nat.lt_mul_div_succ n hpos
        have h4 : 2 ^ 2 ^ j * (n / 2 ^ 2 ^ j + 1) ≤ 2 ^ 2 ^ j * 2 ^ (e + 1) :=
          Nat.mul_le_mul_left _ hhi
        have h5 : 2 ^ (2 ^ j + e + 1) = 2 ^ 2 ^ j * 2 ^ (e + 1) := by
          rw [← pow_add]; congr 1
        rw [h5]
        omega
    · simp only [hc, if_false]
      exact ih n acc h1 (by omega)

theorem log2n_spec (n : Nat) (h : 1 ≤ n) : 2 ^ log2n n ≤ n ∧ n < 2 ^ (log2n n + 1) := by
  have hw : n < 2 ^ 2 ^ log2Width n n 0 := by
    apply log2Width_spec
    have h1 : n < 2 ^ n := Nat.lt_two_pow n
    have h2 : n < 2 ^ (0 + n) := by simpa using h1
    calc n < 2 ^ n := h1
      _ ≤ 2 ^ 2 ^ (0 + n) := Nat.pow_le_pow_right (by decide) (le_of_lt h2)
  obtain ⟨e, he, hlo, hhi⟩ := log2Desc_spec _ n 0 h hw
  have : log2n n = e := by simp [log2n, he]
  rw [this]
  exact ⟨hlo, hhi⟩

theorem pow2_eq (k : Int) : pow2 k = (2 : ℚ) ^ k := by
  unfold pow2
  by_cases hk : 0 ≤ k
  · simp only [hk, if_true]
    obtain ⟨m, rfl⟩ := Int.eq_ofNat_of_zero_le hk
    rw [zpow_natCast, Int.toNat_natCast]
    push_cast
    rfl
  · simp only [hk, if_false]
    obtain ⟨m, hm⟩ := Int.eq_ofNat_of_zero_le (show 0 ≤ -k by omega)
    have hk2 : k = -(m : Int) := by omega
    subst hk2
    rw [neg_neg, zpow_neg, zpow_natCast, Int.toNat_natCast]
    push_cast
    rw [one_div]

theorem pow2_pos (k : Int) : 0 < pow2 k := by
  rw [pow2_eq]
  positivity

theorem pow2_add (a b : Int) : pow2 (a + b) = pow2 a * pow2 b := by
  rw [pow2_eq, pow2_eq, pow2_eq, zpow_add₀ (by norm_num)]

theorem pow2_le_pow2 {a b : Int} (h : a ≤ b) : pow2 a ≤ pow2 b := by
  rw [pow2_eq, pow2_eq]
  exact zpow_le_zpow_right₀ (by norm_num) h

theorem pow2_lt_pow2_iff {a b : Int} : pow2 a < pow2 b ↔ a < b := by
  rw [pow2_eq, pow2_eq]
  exact zpow_lt_zpow_iff_right₀ (by norm_num)

theorem abs_eq_natAbs_div_den (x : ℚ) : |x| = (x.num.natAbs : ℚ) / (x.den : ℚ) := by
  have hden : (0 : ℚ) < x.den := by exact_mod_cast x.den_pos
  conv_lhs => rw [← Rat.num_div_den x]
  rw [abs_div, abs_of_pos hden, Nat.cast_natAbs, Int.cast_abs]

theorem ilog2_spec (x : ℚ) (hx : x ≠ 0) :
    pow2 (ilog2 x) ≤ |x| ∧ |x| < pow2 (ilog2 x + 1) := by
  have hn1 : 1 ≤ x.num.natAbs := by
    have : x.num ≠ 0 := Rat.num_ne_zero.mpr hx
    omega
  have hd1 : 1 ≤ x.den := x.den_pos
  obtain ⟨hnlo, hnhi⟩ := log2n_spec _ hn1
  obtain ⟨hdlo, hdhi⟩ := log2n_spec _ hd1
  rw [abs_eq_natAbs_div_den]
  simp only [ilog2]
  generalize x.num.natAbs = n at *
  generalize x.den = d at *
  have hdpos : (0 : ℚ) < d := by exact_mod_cast hd1
  have hnlo' : (2 : ℚ) ^ (log2n n : Int) ≤ n := by
    rw [zpow_natCast]; exact_mod_cast hnlo
  have hnhi' : (n : ℚ) < (2 : ℚ) ^ ((log2n n : Int) + 1) := by
    have : ((log2n n : Int) + 1) = ((log2n n + 1 : Nat) : Int) := by push_cast; rfl
    rw [this, zpow_natCast]; exact_mod_cast hnhi
  have hdlo' : (2 : ℚ) ^ (log2n d : Int) ≤ d := by
    rw [zpow_natCast]; exact_mod_cast hdlo
  have hdhi' : (d : ℚ) < (2 : ℚ) ^ ((log2n d : Int) + 1) := by
    have : ((log2n d : Int) + 1) = ((log2n d + 1 : Nat) : Int) := by push_cast; rfl
    rw [this, zpow_natCast]; exact_mod_cast hdhi
  generalize (log2n n : Int) = a at *
  generalize (log2n d : Int) = b at *
  -- the quotient lies between `2 ^ (a - b - 1)` and `2 ^ (a - b + 1)`
  have hlow : pow2 (a - b - 1) ≤ (n : ℚ) / d := by
    rw [pow2_eq, le_div_iff₀ hdpos]
    have e : (2 : ℚ) ^ (a - b - 1) * (2 : ℚ) ^ (b + 1) = (2 : ℚ) ^ a := by
      rw [← zpow_add₀ (by norm_num)]; congr 1; ring
    have hp : (0 : ℚ) < (2 : ℚ) ^ (a - b - 1) := by positivity
    calc (2 : ℚ) ^ (a - b - 1) * d ≤ (2 : ℚ) ^ (a - b - 1) * (2 : ℚ) ^ (b + 1) :=
          mul_le_mul_of_nonneg_left (le_of_lt hdhi') (le_of_lt hp)
      _ = (2 : ℚ) ^ a := e
      _ ≤ n := hnlo'
  have hhigh : (n : ℚ) / d < pow2 (a - b + 1) := by
    rw [pow2_eq, div_lt_iff₀ hdpos]
    have e : (2 : ℚ) ^ (a - b + 1) * (2 : ℚ) ^ b = (2 : ℚ) ^ (a + 1) := by
      rw [← zpow_add₀ (by norm_num)]; congr 1; ring
    have hp : (0 : ℚ) < (2 : ℚ) ^ (a - b + 1) := by positivity
    calc (n : ℚ) < (2 : ℚ) ^ (a + 1) := hnhi'
      _ = (2 : ℚ) ^ (a - b + 1) * (2 : ℚ) ^ b := e.symm
      _ ≤ (2 : ℚ) ^ (a - b + 1) * d := mul_le_mul_of_nonneg_left hdlo' (le_of_lt hp)
  -- the comparison made by `ilog2` decides on which side of `2 ^ (a - b)` it lies
  have htest1 : 0 ≤ a - b → (d * 2 ^ (a - b).toNat ≤ n ↔ pow2 (a - b) ≤ (n : ℚ) / d) := by
    intro hk
    rw [le_div_iff₀ hdpos]
    simp only [pow2, hk, if_true]
    constructor
    · intro h
      have : ((d * 2 ^ (a - b).toNat : Nat) : ℚ) ≤ (n : ℚ) := by exact_mod_cast h
      push_cast at this ⊢
      linarith
    · intro h
      have : ((d * 2 ^ (a - b).toNat : Nat) : ℚ) ≤ (n : ℚ) := by
        push_cast at h ⊢
        linarith
      exact_mod_cast this
  have htest2 : ¬ 0 ≤ a - b →
      (d ≤ n * 2 ^ (-(a - b)).toNat ↔ pow2 (a - b) ≤ (n : ℚ) / d) := by
    intro hk
    rw [le_div_iff₀ hdpos]
    simp only [pow2, hk, if_false]
    have hpp : (0 : ℚ) < ((2 ^ (-(a - b)).toNat : Nat) : ℚ) := by positivity
    rw [one_div, inv_mul_le_iff₀ hpp]
    constructor
    · intro h
      have : ((d : Nat) : ℚ) ≤ ((n * 2 ^ (-(a - b)).toNat : Nat) : ℚ) := by exact_mod_cast h
      push_cast at this ⊢
      linarith
    · intro h
      have : ((d : Nat) : ℚ) ≤ ((n * 2 ^ (-(a - b)).toNat : Nat) : ℚ) := by
        push_cast at h ⊢
        linarith
      exact_mod_cast this
  have hm1 : a - b - 1 + 1 = a - b := by ring
  by_cases hk : 0 ≤ a - b
  · by_cases ht : d * 2 ^ (a - b).toNat ≤ n
    · simp only [hk, ht, if_true]
      exact ⟨(htest1 hk).mp ht, hhigh⟩
    · simp only [hk, ht, if_true, if_false, hm1]
      exact ⟨hlow, lt_of_not_le (fun h => ht ((htest1 hk).mpr h))⟩
  · by_cases ht : d ≤ n * 2 ^ (-(a - b)).toNat
    · simp only [hk, ht, if_true, if_false]
      exact ⟨(htest2 hk).mp ht, hhigh⟩
    · simp only [hk, ht, if_false, hm1]
      exact ⟨hlow, lt_of_not_le (fun h => ht ((htest2 hk).mpr h))⟩


/-! ## Rounding to the nearest integer -/

theorem roundHalfEven_floor_or (x : ℚ) :
    roundHalfEven x = ⌊x⌋ ∨ roundHalfEven x = ⌊x⌋ + 1 := by
  unfold roundHalfEven
  simp only []
  split_ifs <;> simp

theorem roundHalfEven_intCast (n : Int) : roundHalfEven (n : ℚ) = n := by
  unfold roundHalfEven
  simp

theorem roundHalfEven_sub_le (x : ℚ) : |(roundHalfEven x : ℚ) - x| ≤ 1 / 2 := by
  have h1 : (⌊x⌋ : ℚ) ≤ x := Int.floor_le x
  have h2 : x < (⌊x⌋ : ℚ) + 1 := Int.lt_floor_add_one x
  unfold roundHalfEven
  simp only []
  rw [abs_le]
  split_ifs with ha hb hc
  · constructor <;> linarith
  · push_cast; constructor <;> linarith
  · constructor <;> linarith
  · push_cast; constructor <;> linarith

theorem roundHalfEven_mono {x y : ℚ} (h : x ≤ y) : roundHalfEven x ≤ roundHalfEven y := by
  have hfl : ⌊x⌋ ≤ ⌊y⌋ := Int.floor_mono h
  rcases lt_or_eq_of_le hfl with hlt | heq
  · have hx : roundHalfEven x ≤ ⌊x⌋ + 1 := by
      rcases roundHalfEven_floor_or x with e | e <;> omega
    have hy : ⌊y⌋ ≤ roundHalfEven y := by
      rcases roundHalfEven_floor_or y with e | e <;> omega
    omega
  · unfold roundHalfEven
    simp only []
    rw [← heq]
    have hxy : x - ⌊x⌋ ≤ y - ⌊x⌋ := by linarith
    split_ifs <;> first | omega | (exfalso; linarith)

theorem roundHalfEven_eq_of_near (x : ℚ) (n : Int) (h : |x - n| < 1 / 2) :
    roundHalfEven x = n := by
  have h1 := roundHalfEven_sub_le x
  rw [abs_le] at h1
  rw [abs_lt] at h
  have h2 : ((roundHalfEven x : Int) : ℚ) < (n : ℚ) + 1 := by linarith
  have h3 : (n : ℚ) - 1 < ((roundHalfEven x : Int) : ℚ) := by linarith
  have h2' : roundHalfEven x < n + 1 := by exact_mod_cast h2
  have h3' : n - 1 < roundHalfEven x := by exact_mod_cast h3
  omega

/-! ## Rounding into a floating-point format -/

theorem rne_zero (fmt : FloatFormat) : rne fmt 0 = 0 := by
  simp [rne]

theorem rne_eq (fmt : FloatFormat) (x : ℚ) :
    rne fmt x = (roundHalfEven (x / pow2 (quantum fmt x)) : ℚ) * pow2 (quantum fmt x) := by
  unfold rne
  by_cases hx : x = 0
  · simp [hx, roundHalfEven]
  · simp [hx]

theorem rne_nonneg (fmt : FloatFormat) {x : ℚ} (h : 0 ≤ x) : 0 ≤ rne fmt x := by
  rw [rne_eq]
  have hp := pow2_pos (quantum fmt x)
  have hq : (0 : ℚ) ≤ x / pow2 (quantum fmt x) := div_nonneg h (le_of_lt hp)
  have hr : (0 : Int) ≤ roundHalfEven (x / pow2 (quantum fmt x)) := by
    have := roundHalfEven_mono hq
    rwa [show ((0 : ℚ)) = ((0 : Int) : ℚ) by simp, roundHalfEven_intCast] at this
  have hr' : (0 : ℚ) ≤ (roundHalfEven (x / pow2 (quantum fmt x)) : ℚ) := by exact_mod_cast hr
  exact mul_nonneg hr' (le_of_lt hp)

/-- Values on the grid of their own quantum are left unchanged. -/
theorem rne_of_grid (fmt : FloatFormat) (x : ℚ) (m : Int)
    (h : x = (m : ℚ) * pow2 (quantum fmt x)) : rne fmt x = x := by
  rw [rne_eq]
  have hp := pow2_pos (quantum fmt x)
  have hq : x / pow2 (quantum fmt x) = (m : ℚ) := by
    rw [div_eq_iff (ne_of_gt hp)]
    exact h
  rw [hq, roundHalfEven_intCast]
  exact h.symm

/-- The rounding error is at most half a unit in the last place. -/
theorem rne_sub_le (fmt : FloatFormat) (x : ℚ) :
    |rne fmt x - x| ≤ pow2 (quantum fmt x) / 2 := by
  rw [rne_eq]
  have hp := pow2_pos (quantum fmt x)
  have h := roundHalfEven_sub_le (x / pow2 (quantum fmt x))
  have e : (roundHalfEven (x / pow2 (quantum fmt x)) : ℚ) * pow2 (quantum fmt x) - x
      = ((roundHalfEven (x / pow2 (quantum fmt x)) : ℚ) - x / pow2 (quantum fmt x))
        * pow2 (quantum fmt x) := by
    field_simp
  rw [e, abs_mul, abs_of_pos hp]
  calc |(roundHalfEven (x / pow2 (quantum fmt x)) : ℚ) - x / pow2 (quantum fmt x)|
        * pow2 (quantum fmt x) ≤ 1 / 2 * pow2 (quantum fmt x) :=
        mul_le_mul_of_nonneg_right h (le_of_lt hp)
    _ = pow2 (quantum fmt x) / 2 := by ring

/-- A bound on the magnitude bounds the quantum. -/
theorem quantum_le (fmt : FloatFormat) (x : ℚ) (hx : x ≠ 0) (e : Int)
    (h : |x| < pow2 e) : quantum fmt x ≤ max (e - fmt.prec) fmt.qmin := by
  have hlog : ilog2 x < e := by
    have h1 := (ilog2_spec x hx).1
    exact pow2_lt_pow2_iff.mp (lt_of_le_of_lt h1 h)
  unfold quantum
  apply max_le_max _ (le_refl _)
  omega


theorem rne_err (fmt : FloatFormat) (x : ℚ) (e : Int) (h : |x| < pow2 e) :
    |rne fmt x - x| ≤ pow2 (max (e - fmt.prec) fmt.qmin) / 2 := by
  by_cases hx : x = 0
  · rw [hx, rne_zero]
    simp only [sub_zero, abs_zero]
    exact le_of_lt (div_pos (pow2_pos _) (by norm_num))
  · have h1 := rne_sub_le fmt x
    have h2 := pow2_le_pow2 (quantum_le fmt x hx e h)
    linarith

theorem pow2_of_nonneg {k : Int} (hk : 0 ≤ k) : pow2 k = (((2 : Int) ^ k.toNat : Int) : ℚ) := by
  simp only [pow2, hk, if_true]
  push_cast
  rfl

/-- A value below a point of its own grid rounds to at most that point. -/
theorem rne_le_of_le_grid (fmt : FloatFormat) (x b : ℚ) (m : Int)
    (hb : b = (m : ℚ) * pow2 (quantum fmt x)) (h : x ≤ b) : rne fmt x ≤ b := by
  rw [rne_eq]
  have hp := pow2_pos (quantum fmt x)
  have hq : x / pow2 (quantum fmt x) ≤ (m : ℚ) := by
    rw [div_le_iff₀ hp, ← hb]
    exact h
  have hr : roundHalfEven (x / pow2 (quantum fmt x)) ≤ m := by
    have := roundHalfEven_mono hq
    rwa [roundHalfEven_intCast] at this
  have hr' : (roundHalfEven (x / pow2 (quantum fmt x)) : ℚ) ≤ (m : ℚ) := by exact_mod_cast hr
  rw [hb]
  exact mul_le_mul_of_nonneg_right hr' (le_of_lt hp)

/-- A value above a point of its own grid rounds to at least that point. -/
theorem le_rne_of_grid_le (fmt : FloatFormat) (x b : ℚ) (m : Int)
    (hb : b = (m : ℚ) * pow2 (quantum fmt x)) (h : b ≤ x) : b ≤ rne fmt x := by
  rw [rne_eq]
  have hp := pow2_pos (quantum fmt x)
  have hq : (m : ℚ) ≤ x / pow2 (quantum fmt x) := by
    rw [le_div_iff₀ hp, ← hb]
    exact h
  have hr : m ≤ roundHalfEven (x / pow2 (quantum fmt x)) := by
    have := roundHalfEven_mono hq
    rwa [roundHalfEven_intCast] at this
  have hr' : (m : ℚ) ≤ (roundHalfEven (x / pow2 (quantum fmt x)) : ℚ) := by exact_mod_cast hr
  rw [hb]
  exact mul_le_mul_of_nonneg_right hr' (le_of_lt hp)

/-- A multiple of `2 ^ k` is a multiple of every finer `2 ^ q`. -/
theorem grid_refine (m k q : Int) (h : q ≤ k) :
    ∃ m' : Int, (m : ℚ) * pow2 k = (m' : ℚ) * pow2 q := by
  refine ⟨m * 2 ^ (k - q).toNat, ?_⟩
  have e : k = (k - q) + q := by ring
  conv_lhs => rw [e, pow2_add, pow2_of_nonneg (show 0 ≤ k - q by omega)]
  push_cast
  ring

/-- Dyadic values that are coarse enough and small enough are representable. -/
theorem rne_dyadic (fmt : FloatFormat) (x : ℚ) (m k e : Int) (hx : x = (m : ℚ) * pow2 k)
    (he : |x| < pow2 e) (hk : max (e - fmt.prec) fmt.qmin ≤ k) : rne fmt x = x := by
  by_cases h0 : x = 0
  · rw [h0, rne_zero]
  · have hq : quantum fmt x ≤ k := le_trans (quantum_le fmt x h0 e he) hk
    obtain ⟨m', hm'⟩ := grid_refine m k (quantum fmt x) hq
    exact rne_of_grid fmt x m' (by rw [hx] at hm' ⊢; exact hm')

theorem ilog2_mono {x y : ℚ} (hx : x ≠ 0) (hy : y ≠ 0) (h : |x| ≤ |y|) :
    ilog2 x ≤ ilog2 y := by
  have h1 := (ilog2_spec x hx).1
  have h2 := (ilog2_spec y hy).2
  have : pow2 (ilog2 x) < pow2 (ilog2 y + 1) := lt_of_le_of_lt (le_trans h1 h) h2
  have := pow2_lt_pow2_iff.mp this
  omega

/-- Rounding to nearest is monotone. -/
theorem rne_mono (fmt : FloatFormat) (hp : 1 ≤ fmt.prec) {x y : ℚ} (h : x ≤ y) :
    rne fmt x ≤ rne fmt y := by
  by_cases hx0 : x = 0
  · rw [hx0, rne_zero]
    exact rne_nonneg fmt (by rw [← hx0]; exact h)
  by_cases hy0 : y = 0
  · rw [hy0, rne_zero]
    exact rne_le_of_le_grid fmt x 0 0 (by simp) (by rw [← hy0]; exact h)
  rcases lt_trichotomy (quantum fmt x) (quantum fmt y) with hq | hq | hq
  · -- `y` has the larger magnitude, hence is positive; separate at `2 ^ ilog2 y`
    have hlog : ilog2 x < ilog2 y := by
      unfold quantum at hq
      by_contra hcon
      have : max (ilog2 y - ((fmt.prec : Int) - 1)) fmt.qmin
          ≤ max (ilog2 x - ((fmt.prec : Int) - 1)) fmt.qmin :=
        max_le_max (by omega) (le_refl _)
      omega
    have hqy : quantum fmt y = ilog2 y - ((fmt.prec : Int) - 1) := by
      unfold quantum at hq ⊢
      apply max_eq_left
      by_contra hcon
      have hmax : max (ilog2 y - ((fmt.prec : Int) - 1)) fmt.qmin = fmt.qmin :=
        max_eq_right (by omega)
      rw [hmax] at hq
      have := le_max_right (ilog2 x - ((fmt.prec : Int) - 1)) fmt.qmin
      omega
    have hypos : 0 < y := by
      by_contra hneg
      have hyneg : y < 0 := lt_of_le_of_ne (not_lt.mp hneg) hy0
      have habs : |y| ≤ |x| := by
        rw [abs_of_neg hyneg, abs_of_neg (lt_of_le_of_lt h hyneg)]
        linarith
      have := ilog2_mono hy0 hx0 habs
      omega
    have hxb : x ≤ pow2 (ilog2 y) := by
      have h1 := (ilog2_spec x hx0).2
      have h2 : pow2 (ilog2 x + 1) ≤ pow2 (ilog2 y) := pow2_le_pow2 (by omega)
      have h3 : x ≤ |x| := le_abs_self x
      linarith
    have hby : pow2 (ilog2 y) ≤ y := by
      have h1 := (ilog2_spec y hy0).1
      rwa [abs_of_pos hypos] at h1
    obtain ⟨m1, hm1⟩ := grid_refine 1 (ilog2 y) (quantum fmt x) (by omega)
    obtain ⟨m2, hm2⟩ := grid_refine 1 (ilog2 y) (quantum fmt y) (by omega)
    simp only [Int.cast_one, one_mul] at hm1 hm2
    exact le_trans (rne_le_of_le_grid fmt x _ m1 hm1 hxb) (le_rne_of_grid_le fmt y _ m2 hm2 hby)
  · rw [rne_eq, rne_eq fmt y, hq]
    have hpq := pow2_pos (quantum fmt y)
    have hdiv : x / pow2 (quantum fmt y) ≤ y / pow2 (quantum fmt y) :=
      div_le_div_of_nonneg_right h (le_of_lt hpq)
    have hr : (roundHalfEven (x / pow2 (quantum fmt y)) : ℚ)
        ≤ (roundHalfEven (y / pow2 (quantum fmt y)) : ℚ) := by
      exact_mod_cast roundHalfEven_mono hdiv
    exact mul_le_mul_of_nonneg_right hr (le_of_lt hpq)
  · -- `x` has the larger magnitude, hence is negative; separate at `-2 ^ ilog2 x`
    have hlog : ilog2 y < ilog2 x := by
      unfold quantum at hq
      by_contra hcon
      have : max (ilog2 x - ((fmt.prec : Int) - 1)) fmt.qmin
          ≤ max (ilog2 y - ((fmt.prec : Int) - 1)) fmt.qmin :=
        max_le_max (by omega) (le_refl _)
      omega
    have hqx : quantum fmt x = ilog2 x - ((fmt.prec : Int) - 1) := by
      unfold quantum at hq ⊢
      apply max_eq_left
      by_contra hcon
      have hmax : max (ilog2 x - ((fmt.prec : Int) - 1)) fmt.qmin = fmt.qmin :=
        max_eq_right (by omega)
      rw [hmax] at hq
      have := le_max_right (ilog2 y - ((fmt.prec : Int) - 1)) fmt.qmin
      omega
    have hxneg : x < 0 := by
      by_contra hpos
      have hxpos : 0 < x := lt_of_le_of_ne (not_lt.mp hpos) (Ne.symm hx0)
      have habs : |x| ≤ |y| := by
        rw [abs_of_pos hxpos, abs_of_pos (lt_of_lt_of_le hxpos h)]
        exact h
      have := ilog2_mono hx0 hy0 habs
      omega
    have hxb : x ≤ -pow2 (ilog2 x) := by
      have h1 := (ilog2_spec x hx0).1
      rw [abs_of_neg hxneg] at h1
      linarith
    have hby : -pow2 (ilog2 x) ≤ y := by
      have h1 := (ilog2_spec y hy0).2
      have h2 : pow2 (ilog2 y + 1) ≤ pow2 (ilog2 x) := pow2_le_pow2 (by omega)
      have h3 : -y ≤ |y| := neg_le_abs y
      linarith
    obtain ⟨m1, hm1⟩ := grid_refine (-1) (ilog2 x) (quantum fmt x) (by omega)
    obtain ⟨m2, hm2⟩ := grid_refine (-1) (ilog2 x) (quantum fmt y) (by omega)
    simp only [Int.cast_neg, Int.cast_one, neg_mul, one_mul] at hm1 hm2
    exact le_trans (rne_le_of_le_grid fmt x _ m1 hm1 hxb) (le_rne_of_grid_le fmt y _ m2 hm2 hby)

/-! ## Properties of the score aggregator -/

/-- C3: for a findings list of length `n` the security sub-score reported by
`calculate_quality_score` is `100 − min(30, 5 × n)` and the reported issue
count is `n`; the score is `100` without findings and `70` from six findings on. -/
theorem security_score_formula (complexity : ComplexityResult) (security : List Finding)
    (dependencies : DependencyResult) :
    (calculate_quality_score complexity security dependencies).breakdown.security_score
        = 100 - min 30 (5 * (security.length : Int))
      ∧ (calculate_quality_score complexity security dependencies).breakdown.security_issues
        = (security.length : Int)
      ∧ (security.length = 0 →
          (calculate_quality_score complexity security dependencies).breakdown.security_score
            = 100)
      ∧ (6 ≤ security.length →
          (calculate_quality_score complexity security dependencies).breakdown.security_score
            = 70) := by
  have hnn : (0 : Int) ≤ (security.length : Int) := Int.natCast_nonneg _
  refine ⟨?_, rfl, ?_, ?_⟩
  · simp only [calculate_quality_score]
    rw [Int.mul_comm]
  · intro h0
    simp only [calculate_quality_score, h0]
    decide
  · intro h6
    have h6i : (6 : Int) ≤ (security.length : Int) := by exact_mod_cast h6
    simp only [calculate_quality_score]
    have hmin : min (30 : Int) ((security.length : Int) * 5) = 30 := by
      apply min_eq_left
      omega
    rw [hmin]
    rfl

/-- Seven findings: the security sub-score is `70` and seven issues are
reported; no finding: the sub-score is `100`. -/
theorem security_score_formula_witness :
    6 ≤ (List.replicate 7 apiKeyFinding).length
      ∧ (calculate_quality_score ⟨0, []⟩ (List.replicate 7 apiKeyFinding)
        {}).breakdown.security_score = 70
      ∧ (calculate_quality_score ⟨0, []⟩ (List.replicate 7 apiKeyFinding)
        {}).breakdown.security_issues = 7
      ∧ ([] : List Finding).length = 0
      ∧ (calculate_quality_score ⟨0, []⟩ [] {}).breakdown.security_score = 100 := by
  have h := security_score_formula ⟨0, []⟩ (List.replicate 7 apiKeyFinding) {}
  have h0 := security_score_formula ⟨0, []⟩ [] {}
  exact ⟨by decide, h.2.2.2 (by decide), h.2.1, rfl, h0.2.2.1 rfl⟩

/-- C4: the organization sub-score reported by `calculate_quality_score` is
`100` for at most 20 files, `85` for 21 to 50 files and `70` above 50 files;
the steps lie between 20 and 21 and between 50 and 51. -/
theorem organization_score_step (complexity : ComplexityResult) (security : List Finding)
    (dependencies : DependencyResult) :
    (calculate_quality_score complexity security dependencies).breakdown.organization_score
        = (if complexity.total_files ≤ 20 then 100
            else if complexity.total_files ≤ 50 then 85 else 70)
      ∧ (calculate_quality_score ⟨20, complexity.languages⟩ security
          dependencies).breakdown.organization_score = 100
      ∧ (calculate_quality_score ⟨21, complexity.languages⟩ security
          dependencies).breakdown.organization_score = 85
      ∧ (calculate_quality_score ⟨50, complexity.languages⟩ security
          dependencies).breakdown.organization_score = 85
      ∧ (calculate_quality_score ⟨51, complexity.languages⟩ security
          dependencies).breakdown.organization_score = 70 := by
  refine ⟨?_, rfl, rfl, rfl, rfl⟩
  simp only [calculate_quality_score]
  by_cases h50 : complexity.total_files > 50
  · have h1 : ¬ complexity.total_files ≤ 20 := by omega
    have h2 : ¬ complexity.total_files ≤ 50 := by omega
    simp only [h50, h1, h2, if_true, if_false]
  · by_cases h20 : complexity.total_files > 20
    · have h1 : ¬ complexity.total_files ≤ 20 := by omega
      have h2 : complexity.total_files ≤ 50 := by omega
      simp only [h50, h20, h1, h2, if_true, if_false]
    · have h1 : complexity.total_files ≤ 20 := by omega
      simp only [h50, h20, h1, if_true, if_false]

/-! ## Properties of the dependency analyzer -/

theorem manager_key_order :
    ¬ "gradle" < "cargo" ∧ ¬ "maven" < "cargo" ∧ ¬ "npm" < "cargo" ∧ ¬ "pip" < "cargo"
      ∧ ¬ "maven" < "gradle" ∧ ¬ "npm" < "gradle" ∧ ¬ "pip" < "gradle"
      ∧ ¬ "npm" < "maven" ∧ ¬ "pip" < "maven" ∧ ¬ "pip" < "npm" := by
  decide!

theorem dependencyLoop_error (root : RootDir) (es : List (String × String))
    (h : ∃ e ∈ es, root e.2 = .directory ∨ root e.2 = .inaccessible) (deps : DependencyResult) :
    ∃ failure, dependencyLoop root es deps = .error failure := by
  induction es generalizing deps with
  | nil => simp at h
  | cons e rest ih =>
    simp only [dependencyLoop, dependencyStep, fs_exists, readContent]
    have hrest : root e.2 ≠ .directory → root e.2 ≠ .inaccessible →
        ∃ e' ∈ rest, root e'.2 = .directory ∨ root e'.2 = .inaccessible := by
      intro hne1 hne2
      obtain ⟨e', he', hd⟩ := h
      rcases List.mem_cons.mp he' with rfl | hmem
      · rcases hd with hd | hd
        · exact absurd hd hne1
        · exact absurd hd hne2
      · exact ⟨e', hmem, hd⟩
    rcases hr : root e.2 with _ | c | _ | _
    · exact ih (hrest (by rw [hr]; simp) (by rw [hr]; simp)) deps
    · exact ih (hrest (by rw [hr]; simp) (by rw [hr]; simp)) _
    · exact ⟨_, rfl⟩
    · exact ⟨_, rfl⟩

theorem dependencyLoop_error_file (root : RootDir) (es : List (String × String))
    (deps : DependencyResult) (failure : Failure)
    (h : dependencyLoop root es deps = .error failure) :
    ∃ e ∈ es, (root e.2 = .directory ∧ failure = .ios_failure e.2)
      ∨ (root e.2 = .inaccessible ∧ failure = .filesystem_error e.2) := by
  induction es generalizing deps with
  | nil => simp [dependencyLoop] at h
  | cons e rest ih =>
    simp only [dependencyLoop, dependencyStep, fs_exists, readContent] at h
    rcases hr : root e.2 with _ | c | _ | _
    · rw [hr] at h
      obtain ⟨e', he', h'⟩ := ih deps h
      exact ⟨e', List.mem_cons_of_mem _ he', h'⟩
    · rw [hr] at h
      obtain ⟨e', he', h'⟩ := ih _ h
      exact ⟨e', List.mem_cons_of_mem _ he', h'⟩
    · rw [hr] at h
      simp only [Except.error.injEq] at h
      exact ⟨e, List.mem_cons_self _ _, Or.inl ⟨hr, h.symm⟩⟩
    · rw [hr] at h
      simp only [Except.error.injEq] at h
      exact ⟨e, List.mem_cons_self _ _, Or.inr ⟨hr, h.symm⟩⟩

theorem rootEntry_cases (root : RootDir) (name : String)
    (h : root name ≠ .directory ∧ root name ≠ .inaccessible) :
    root name = .absent ∨ ∃ content, root name = .file content := by
  rcases hr : root name with _ | c | _ | _
  · exact Or.inl rfl
  · exact Or.inr ⟨c, rfl⟩
  · exact absurd hr h.1
  · exact absurd hr h.2

theorem analyze_dependencies_eq (root : RootDir)
    (h : ∀ e ∈ package_files, root e.2 ≠ .directory ∧ root e.2 ≠ .inaccessible) :
    ∃ deps, analyze_dependencies root = .ok deps
      ∧ deps.package_managers
        = package_files.filterMap (fun e =>
            match root e.2 with
            | .file content => some (e.1, manifestInfo e.2 content)
            | _ => none)
      ∧ deps.total_dependencies
        = ((deps.package_managers.map (fun kv => kv.2.estimated_dependencies)).sum : Int) := by
  obtain ⟨h1, h2, h3, h4, h5, h6, h7, h8, h9, h10⟩ := manager_key_order
  simp only [package_files, List.forall_mem_cons, List.not_mem_nil, false_implies, implies_true,
    and_true] at h
  obtain ⟨d1, d2, d3, d4, d5⟩ := h
  simp only [analyze_dependencies, package_files, dependencyLoop, dependencyStep, fs_exists,
    readContent, List.filterMap]
  rcases rootEntry_cases root _ d1 with r1 | ⟨c1, r1⟩ <;>
    rcases rootEntry_cases root _ d2 with r2 | ⟨c2, r2⟩ <;>
    rcases rootEntry_cases root _ d3 with r3 | ⟨c3, r3⟩ <;>
    rcases rootEntry_cases root _ d4 with r4 | ⟨c4, r4⟩ <;>
    rcases rootEntry_cases root _ d5 with r5 | ⟨c5, r5⟩ <;>
    simp only [r1, r2, r3, r4, r5, StrMap.set, StrMap.modify, manifestInfo, h1, h2, h3, h4, h5, h6,
      h7, h8, h9, h10, if_false, List.sum_cons, List.sum_nil, String.reduceEq,
      and_true, true_and, add_zero, zero_add, add_assoc, List.map_cons, List.map_nil,
      Except.ok.injEq, exists_eq_left']

theorem analyze_dependencies_no_failure (root : RootDir) (deps : DependencyResult)
    (h : analyze_dependencies root = .ok deps) :
    ∀ e ∈ package_files, root e.2 ≠ .directory ∧ root e.2 ≠ .inaccessible := by
  intro e he
  by_contra hd
  have hor : root e.2 = .directory ∨ root e.2 = .inaccessible := by
    by_contra hno
    exact hd ⟨fun h1 => hno (Or.inl h1), fun h2 => hno (Or.inr h2)⟩
  obtain ⟨failure, hf⟩ := dependencyLoop_error root package_files ⟨e, he, hor⟩ {}
  rw [analyze_dependencies, hf] at h
  cases h

theorem analyze_dependencies_ok (root : RootDir) (deps : DependencyResult)
    (h : analyze_dependencies root = .ok deps) :
    deps.package_managers
        = package_files.filterMap (fun e =>
            match root e.2 with
            | .file content => some (e.1, manifestInfo e.2 content)
            | _ => none)
      ∧ deps.total_dependencies
        = ((deps.package_managers.map (fun kv => kv.2.estimated_dependencies)).sum : Int) := by
  obtain ⟨deps', hok, hpm, htotal⟩ :=
    analyze_dependencies_eq root (analyze_dependencies_no_failure root deps h)
  rw [h] at hok
  cases hok
  exact ⟨hpm, htotal⟩

theorem newlineCount_nonneg (content : String) : 0 ≤ newlineCount content :=
  Int.natCast_nonneg _

theorem newlineCount_linesContent (lines : List String) (tail : String)
    (hlines : ∀ l ∈ lines, '\n' ∉ l.data) (htail : '\n' ∉ tail.data) :
    newlineCount (linesContent lines tail) = (lines.length : Int) := by
  have hcount : ∀ ls : List String, (∀ l ∈ ls, '\n' ∉ l.data) →
      List.count '\n' (ls.flatMap (fun l => l.data ++ ['\n'])) = ls.length := by
    intro ls
    induction ls with
    | nil => intro _; rfl
    | cons l rest ih =>
      intro h
      have hl : List.count '\n' l.data = 0 :=
        List.count_eq_zero.mpr (h l (List.mem_cons_self _ _))
      have hrest := ih (fun x hx => h x (List.mem_cons_of_mem _ hx))
      simp only [List.flatMap_cons, List.count_append, hl, hrest, List.length_cons,
        List.count_cons_self, List.count_nil]
      omega
  have ht : List.count '\n' tail.data = 0 := List.count_eq_zero.mpr htail
  simp only [newlineCount, linesContent, List.count_append, hcount lines hlines, ht, add_zero]

theorem sum_pos_iff_exists_pos (xs : List Int) (hnn : ∀ x ∈ xs, 0 ≤ x) :
    0 < xs.sum ↔ ∃ x ∈ xs, 0 < x := by
  induction xs with
  | nil => simp
  | cons a rest ih =>
    have ha : 0 ≤ a := hnn a (List.mem_cons_self _ _)
    have hrest := ih (fun x hx => hnn x (List.mem_cons_of_mem _ hx))
    have hsum : 0 ≤ rest.sum := List.sum_nonneg (fun x hx => hnn x (List.mem_cons_of_mem _ hx))
    simp only [List.sum_cons, List.mem_cons, exists_eq_or_imp]
    constructor
    · intro h
      by_cases hpos : 0 < a
      · exact Or.inl hpos
      · exact Or.inr (hrest.mp (by omega))
    · rintro (h | h)
      · omega
      · have := hrest.mpr h
        omega

theorem getlinesAux_line (line : List Char) (hline : '\n' ∉ line) (rest acc : List Char) :
    getlinesAux (line ++ '\n' :: rest) acc = (acc.reverse ++ line) :: getlinesAux rest [] := by
  induction line generalizing acc with
  | nil => simp [getlinesAux]
  | cons c cs ih =>
    have hc : c ≠ '\n' := fun h => hline (h ▸ List.mem_cons_self _ _)
    have hcs : '\n' ∉ cs := fun h => hline (List.mem_cons_of_mem _ h)
    show getlinesAux (c :: (cs ++ '\n' :: rest)) acc = _
    rw [getlinesAux, if_neg hc, ih hcs]
    simp

theorem getlinesAux_tail (tail : List Char) (htail : '\n' ∉ tail) (acc : List Char) :
    getlinesAux tail acc = if acc.reverse ++ tail = [] then [] else [acc.reverse ++ tail] := by
  induction tail generalizing acc with
  | nil => cases acc <;> simp [getlinesAux]
  | cons c cs ih =>
    have hc : c ≠ '\n' := fun h => htail (h ▸ List.mem_cons_self _ _)
    have hcs : '\n' ∉ cs := fun h => htail (List.mem_cons_of_mem _ h)
    simp only [getlinesAux, hc, if_false, ih hcs, List.reverse_cons, List.append_assoc,
      List.singleton_append]

theorem getlines_linesContent (lines : List String) (tail : String)
    (hlines : ∀ l ∈ lines, '\n' ∉ l.data) (htail : '\n' ∉ tail.data) :
    getlines (linesContent lines tail)
      = lines.map (fun l => l.data) ++ (if tail = "" then [] else [tail.data]) := by
  have haux : ∀ ls : List String, (∀ l ∈ ls, '\n' ∉ l.data) →
      getlinesAux (ls.flatMap (fun l => l.data ++ ['\n']) ++ tail.data) []
        = ls.map (fun l => l.data) ++ getlinesAux tail.data [] := by
    intro ls
    induction ls with
    | nil => intro _; rfl
    | cons l rest ih =>
      intro h
      have hl := h l (List.mem_cons_self _ _)
      have hrest := ih (fun x hx => h x (List.mem_cons_of_mem _ hx))
      simp only [List.flatMap_cons, List.append_assoc, List.singleton_append, List.map_cons,
        List.cons_append]
      rw [getlinesAux_line l.data hl]
      simp [hrest]
  have hempty : tail = "" ↔ tail.data = [] := by
    constructor
    · rintro rfl; rfl
    · intro h; exact String.ext h
  simp only [getlines, linesContent, haux lines hlines, getlinesAux_tail tail.data htail,
    List.reverse_nil, List.nil_append, hempty]

theorem estimated_dependencies_nonneg (root : RootDir) (deps : DependencyResult)
    (h : analyze_dependencies root = .ok deps) :
    ∀ kv ∈ deps.package_managers, 0 ≤ kv.2.estimated_dependencies := by
  intro kv hkv
  rw [(analyze_dependencies_ok root deps h).1, List.mem_filterMap] at hkv
  obtain ⟨e, _, he⟩ := hkv
  rcases hr : root e.2 with _ | c | _ | _
  · simp [hr] at he
  · simp only [hr, Option.some.injEq] at he
    rw [← he]
    exact newlineCount_nonneg c
  · simp [hr] at he
  · simp [hr] at he

theorem total_dependencies_pos_iff (root : RootDir) (deps : DependencyResult)
    (h : analyze_dependencies root = .ok deps) :
    0 < deps.total_dependencies
      ↔ ∃ kv ∈ deps.package_managers, 0 < kv.2.estimated_dependencies := by
  rw [(analyze_dependencies_ok root deps h).2, sum_pos_iff_exists_pos]
  · simp only [List.mem_map, exists_exists_and_eq_and]
  · intro x hx
    obtain ⟨kv, hkv, rfl⟩ := List.mem_map.mp hx
    exact estimated_dependencies_nonneg root deps h kv hkv

/-- C8, counterexample: a `requirements.txt` made of the two lines `flask` and
`requests`, the second without final newline, is reported with
`estimated_dependencies` 1 and total 1, not 2; and at a root where
`package.json` exists as a directory `analyze_dependencies` returns no result,
the read of that entry throws. -/
theorem manifest_count_counterexample :
    getlines "flask\nrequests" = ["flask".data, "requests".data]
      ∧ analyze_dependencies (singleFileRoot "requirements.txt" "flask\nrequests")
        = .ok { package_managers :=
                  [("pip", { found := true, file := "requirements.txt",
                             estimated_dependencies := 1 })],
                total_dependencies := 1 }
      ∧ fs_exists (singleDirectoryRoot "package.json") "package.json" = .ok true
      ∧ analyze_dependencies (singleDirectoryRoot "package.json")
        = .error (.ios_failure "package.json") :=
  ⟨rfl, rfl, rfl, rfl⟩

/-- C8, amended: at a root where every manifest of the table is absent or reads
as a file, `analyze_dependencies` returns a `package_managers` object holding
exactly the managers whose manifest exists, each with the number of newline
characters of its manifest, and a `total_dependencies` that is the sum of these
counts.  The number of newline characters is the number of newline-terminated
lines: the lines read by `std::getline` are one more when an unterminated last
line follows.  At a root where a manifest of the table is a directory, or an
entry whose status cannot be obtained, the call returns nothing and ends in the
exception thrown at such an entry.  A root whose only manifest is a
`package.json` of 12 newline-terminated lines gives total 12 and only `npm`. -/
theorem analyze_dependencies_spec (root : RootDir) :
    ((∀ e ∈ package_files, root e.2 ≠ .directory ∧ root e.2 ≠ .inaccessible) →
        ∃ deps, analyze_dependencies root = .ok deps
          ∧ deps.package_managers
            = package_files.filterMap (fun e =>
                match root e.2 with
                | .file content =>
                  some (e.1, { found := true, file := e.2,
                               estimated_dependencies := newlineCount content })
                | _ => none)
          ∧ deps.total_dependencies
            = ((deps.package_managers.map (fun kv => kv.2.estimated_dependencies)).sum : Int))
      ∧ ((∃ e ∈ package_files, root e.2 = .directory ∨ root e.2 = .inaccessible) →
          ∃ failure, analyze_dependencies root = .error failure
            ∧ ∃ e ∈ package_files, (root e.2 = .directory ∧ failure = .ios_failure e.2)
              ∨ (root e.2 = .inaccessible ∧ failure = .filesystem_error e.2))
      ∧ (∀ (lines : List String) (tail : String),
          (∀ l ∈ lines, '\n' ∉ l.data) → '\n' ∉ tail.data →
            newlineCount (linesContent lines tail) = (lines.length : Int)
              ∧ getlines (linesContent lines tail)
                = lines.map (fun l => l.data) ++ (if tail = "" then [] else [tail.data]))
      ∧ (∀ lines : List String, lines.length = 12 → (∀ l ∈ lines, '\n' ∉ l.data) →
          root "package.json" = .file (linesContent lines "") →
          root "Cargo.toml" = .absent → root "build.gradle" = .absent →
          root "pom.xml" = .absent → root "requirements.txt" = .absent →
            analyze_dependencies root
              = .ok { package_managers :=
                        [("npm", { found := true, file := "package.json",
                                   estimated_dependencies := 12 })],
                      total_dependencies := 12 }) := by
  refine ⟨analyze_dependencies_eq root, ?_, ?_, ?_⟩
  · intro h
    obtain ⟨failure, hf⟩ := dependencyLoop_error root package_files h {}
    exact ⟨failure, hf, dependencyLoop_error_file root package_files {} failure hf⟩
  · intro lines tail hlines htail
    exact ⟨newlineCount_linesContent lines tail hlines htail,
      getlines_linesContent lines tail hlines htail⟩
  · intro lines hlen hlines hnpm hcargo hgradle hmaven hpip
    have hcount : newlineCount (linesContent lines "") = 12 := by
      rw [newlineCount_linesContent lines "" hlines (by simp), hlen]
      rfl
    simp only [analyze_dependencies, package_files, dependencyLoop, dependencyStep, fs_exists,
      readContent, hnpm, hcargo, hgradle, hmaven, hpip, hcount, StrMap.set, StrMap.modify,
      zero_add]

/-- A `package.json` of twelve lines `x`, each terminated by a newline; a root
where `pom.xml` is a directory; a content of two terminated lines and a tail. -/
theorem analyze_dependencies_spec_witness :
    (∀ e ∈ package_files,
        singleFileRoot "package.json" (linesContent (List.replicate 12 "x") "") e.2 ≠ .directory
          ∧ singleFileRoot "package.json" (linesContent (List.replicate 12 "x") "") e.2
            ≠ .inaccessible)
      ∧ (List.replicate 12 "x").length = 12 ∧ (∀ l ∈ List.replicate 12 "x", '\n' ∉ l.data)
      ∧ analyze_dependencies (singleFileRoot "package.json"
          (linesContent (List.replicate 12 "x") ""))
        = .ok { package_managers :=
                  [("npm", { found := true, file := "package.json",
                             estimated_dependencies := 12 })],
                total_dependencies := 12 }
      ∧ (∃ e ∈ package_files, singleDirectoryRoot "pom.xml" e.2 = .directory
          ∨ singleDirectoryRoot "pom.xml" e.2 = .inaccessible)
      ∧ (∃ failure, analyze_dependencies (singleDirectoryRoot "pom.xml") = .error failure
          ∧ ∃ e ∈ package_files,
            (singleDirectoryRoot "pom.xml" e.2 = .directory ∧ failure = .ios_failure e.2)
              ∨ (singleDirectoryRoot "pom.xml" e.2 = .inaccessible
                ∧ failure = .filesystem_error e.2))
      ∧ analyze_dependencies (singleDirectoryRoot "pom.xml") = .error (.ios_failure "pom.xml")
      ∧ analyze_dependencies (symlinkLoopRoot "Cargo.toml")
        = .error (.filesystem_error "Cargo.toml")
      ∧ newlineCount (linesContent ["a", "b"] "c") = 2
      ∧ getlines (linesContent ["a", "b"] "c") = ["a".data, "b".data, "c".data] := by
  have h := analyze_dependencies_spec (singleFileRoot "package.json"
    (linesContent (List.replicate 12 "x") ""))
  have hd := analyze_dependencies_spec (singleDirectoryRoot "pom.xml")
  have hdir : ∃ e ∈ package_files, singleDirectoryRoot "pom.xml" e.2 = .directory
      ∨ singleDirectoryRoot "pom.xml" e.2 = .inaccessible :=
    ⟨("maven", "pom.xml"), by decide, Or.inl rfl⟩
  have hlines := h.2.2.1 ["a", "b"] "c" (by decide) (by decide)
  exact ⟨by decide, by decide, by decide,
    h.2.2.2 (List.replicate 12 "x") (by decide) (by decide) rfl rfl rfl rfl rfl,
    hdir, hd.2.1 hdir, rfl, rfl, hlines.1, hlines.2⟩

/-- C5, counterexample: at a root whose `package.json` holds no newline,
`analyze_dependencies` reports `npm` as found, yet the dependency_management
sub-score computed from that result is `80`, not `100`. -/
theorem dependency_score_found_counterexample :
    analyze_dependencies bareManifestRoot
        = .ok { package_managers :=
                  [("npm", { found := true, file := "package.json",
                             estimated_dependencies := 0 })],
                total_dependencies := 0 }
      ∧ (calculate_quality_score ⟨1, []⟩ []
          { package_managers :=
              [("npm", { found := true, file := "package.json", estimated_dependencies := 0 })],
            total_dependencies := 0 }).breakdown.dependency_management_score = 80 :=
  ⟨rfl, by decide⟩

/-- C5, amended: the dependency_management sub-score is `100` when
`total_dependencies` is positive and `80` otherwise; computed from a result
returned by `analyze_dependencies` it is `100` exactly when some manifest
reported there has a positive estimated count (holds at least one newline),
and `80` when every reported manifest has count zero. -/
theorem dependency_score_rule (complexity : ComplexityResult) (security : List Finding)
    (dependencies : DependencyResult) (root : RootDir) :
    (calculate_quality_score complexity security dependencies).breakdown.dependency_management_score
        = (if 0 < dependencies.total_dependencies then 100 else 80)
      ∧ (∀ deps, analyze_dependencies root = .ok deps →
          (∃ kv ∈ deps.package_managers, 0 < kv.2.estimated_dependencies) →
          (calculate_quality_score complexity security
            deps).breakdown.dependency_management_score = 100)
      ∧ (∀ deps, analyze_dependencies root = .ok deps →
          (∀ kv ∈ deps.package_managers, kv.2.estimated_dependencies = 0) →
          (calculate_quality_score complexity security
            deps).breakdown.dependency_management_score = 80) := by
  have hrule : ∀ deps : DependencyResult,
      (calculate_quality_score complexity security deps).breakdown.dependency_management_score
        = (if 0 < deps.total_dependencies then 100 else 80) := by
    intro deps
    simp only [calculate_quality_score, gt_iff_lt]
    by_cases h : 0 < deps.total_dependencies <;> simp [h]
  refine ⟨hrule dependencies, ?_, ?_⟩
  · intro deps hok h
    rw [hrule, if_pos ((total_dependencies_pos_iff root deps hok).mpr h)]
  · intro deps hok h
    have hnot : ¬ 0 < deps.total_dependencies := by
      rw [total_dependencies_pos_iff root deps hok]
      rintro ⟨kv, hkv, hpos⟩
      rw [h kv hkv] at hpos
      exact absurd hpos (by decide)
    rw [hrule, if_neg hnot]

/-- A `package.json` with two newlines scores `100`; one without newline scores `80`. -/
theorem dependency_score_rule_witness :
    analyze_dependencies (singleFileRoot "package.json" "a\nb\n")
        = .ok { package_managers :=
                  [("npm", { found := true, file := "package.json",
                             estimated_dependencies := 2 })],
                total_dependencies := 2 }
      ∧ (calculate_quality_score ⟨1, []⟩ []
          { package_managers :=
              [("npm", { found := true, file := "package.json", estimated_dependencies := 2 })],
            total_dependencies := 2 }).breakdown.dependency_management_score = 100
      ∧ analyze_dependencies bareManifestRoot
        = .ok { package_managers :=
                  [("npm", { found := true, file := "package.json",
                             estimated_dependencies := 0 })],
                total_dependencies := 0 }
      ∧ (calculate_quality_score ⟨1, []⟩ []
          { package_managers :=
              [("npm", { found := true, file := "package.json", estimated_dependencies := 0 })],
            total_dependencies := 0 }).breakdown.dependency_management_score = 80 := by
  have h1 := dependency_score_rule ⟨1, []⟩ [] {} (singleFileRoot "package.json" "a\nb\n")
  have h2 := dependency_score_rule ⟨1, []⟩ [] {} bareManifestRoot
  exact ⟨rfl, h1.2.1 _ rfl (by decide), rfl, h2.2.2 _ rfl (by decide)⟩

/-! ## Properties of the line scanners -/

theorem scanLine_consistent (stats : FileStats) (line : List Char)
    (h : 0 ≤ stats.blank_lines ∧ 0 ≤ stats.comment_lines
      ∧ stats.blank_lines + stats.comment_lines ≤ stats.lines) :
    0 ≤ (scanLine stats line).blank_lines ∧ 0 ≤ (scanLine stats line).comment_lines
      ∧ (scanLine stats line).blank_lines + (scanLine stats line).comment_lines
        ≤ (scanLine stats line).lines := by
  obtain ⟨h1, h2, h3⟩ := h
  cases hb : isBlankLine line <;> cases hc : hasCommentMarker line <;>
    simp only [scanLine, hb, hc, if_true, if_false, Bool.false_eq_true] <;> omega

theorem scanFile_consistent (content : String) (stats : FileStats)
    (h : 0 ≤ stats.blank_lines ∧ 0 ≤ stats.comment_lines
      ∧ stats.blank_lines + stats.comment_lines ≤ stats.lines) :
    0 ≤ (scanFile content stats).blank_lines ∧ 0 ≤ (scanFile content stats).comment_lines
      ∧ (scanFile content stats).blank_lines + (scanFile content stats).comment_lines
        ≤ (scanFile content stats).lines := by
  unfold scanFile
  generalize getlines content = ls
  induction ls generalizing stats with
  | nil => exact h
  | cons l rest ih => exact ih (scanLine stats l) (scanLine_consistent stats l h)

theorem StrMap.modify_forall {α : Type} (P : α → Prop) (k : String) (dflt : α) (f : α → α)
    (hd : P (f dflt)) (hf : ∀ v, P v → P (f v)) (m : StrMap α) (hm : ∀ kv ∈ m, P kv.2) :
    ∀ kv ∈ StrMap.modify k dflt f m, P kv.2 := by
  induction m with
  | nil =>
    intro kv hkv
    simp only [StrMap.modify, List.mem_singleton] at hkv
    rw [hkv]
    exact hd
  | cons head rest ih =>
    obtain ⟨k', v⟩ := head
    have hv : P v := hm (k', v) (List.mem_cons_self _ _)
    have hrest : ∀ kv ∈ rest, P kv.2 := fun kv hkv => hm kv (List.mem_cons_of_mem _ hkv)
    intro kv hkv
    unfold StrMap.modify at hkv
    by_cases h1 : k = k'
    · simp only [h1, if_true, List.mem_cons] at hkv
      rcases hkv with hkv | hkv
      · rw [hkv]
        exact hf v hv
      · exact hrest kv hkv
    · by_cases h2 : k < k'
      · simp only [h1, h2, if_true, if_false, List.mem_cons] at hkv
        rcases hkv with hkv | hkv | hkv
        · rw [hkv]
          exact hd
        · rw [hkv]
          exact hv
        · exact hrest kv hkv
      · simp only [h1, h2, if_false, List.mem_cons] at hkv
        rcases hkv with hkv | hkv
        · rw [hkv]
          exact hv
        · exact ih hrest kv hkv

theorem language_stats_consistent (files : List FileEntry) :
    ∀ kv ∈ (files.foldl complexityStep {}).language_stats,
      0 ≤ kv.2.blank_lines ∧ 0 ≤ kv.2.comment_lines
        ∧ kv.2.blank_lines + kv.2.comment_lines ≤ kv.2.lines := by
  have hgen : ∀ (fs : List FileEntry) (st : ComplexityState),
      (∀ kv ∈ st.language_stats, 0 ≤ kv.2.blank_lines ∧ 0 ≤ kv.2.comment_lines
        ∧ kv.2.blank_lines + kv.2.comment_lines ≤ kv.2.lines) →
      ∀ kv ∈ (fs.foldl complexityStep st).language_stats,
        0 ≤ kv.2.blank_lines ∧ 0 ≤ kv.2.comment_lines
          ∧ kv.2.blank_lines + kv.2.comment_lines ≤ kv.2.lines := by
    intro fs
    induction fs with
    | nil => intro st h; exact h
    | cons entry rest ih =>
      intro st h
      apply ih
      unfold complexityStep
      by_cases hext : (extension entry.filename).isEmpty = true
      · simp only [hext, if_true]
        exact h
      · simp only [hext, if_false]
        exact StrMap.modify_forall
          (fun s : FileStats => 0 ≤ s.blank_lines ∧ 0 ≤ s.comment_lines
            ∧ s.blank_lines + s.comment_lines ≤ s.lines)
          _ _ _
          (scanFile_consistent entry.content {} (by decide))
          (fun v hv => scanFile_consistent entry.content v hv) st.language_stats h
  exact hgen files {} (fun kv hkv => absurd hkv (List.not_mem_nil _))

theorem languages_consistent (files : List FileEntry) :
    ∀ kv ∈ (analyze_code_complexity files).languages,
      kv.2.blank_lines + kv.2.comment_lines ≤ kv.2.total_lines
        ∧ kv.2.code_lines = kv.2.total_lines - kv.2.blank_lines - kv.2.comment_lines := by
  intro kv hkv
  simp only [analyze_code_complexity, List.mem_map] at hkv
  obtain ⟨raw, hraw, rfl⟩ := hkv
  exact ⟨(language_stats_consistent files raw hraw).2.2, rfl⟩

/-- C9, counterexample: no file tree makes `analyze_code_complexity` report a
negative `code_lines`; the existence claimed by C9 is refuted. -/
theorem code_lines_negative_counterexample :
    ¬ ∃ (files : List FileEntry) (kv : String × LanguageStats),
        kv ∈ (analyze_code_complexity files).languages ∧ kv.2.code_lines < 0 := by
  rintro ⟨files, kv, hkv, hneg⟩
  obtain ⟨hle, hcode⟩ := languages_consistent files kv hkv
  omega

/-- C9, amended: for every file tree and every extension reported by
`analyze_code_complexity`, `code_lines` is `total_lines − blank_lines −
comment_lines` and is never negative: a blank line skips the comment test, so
`blank_lines + comment_lines ≤ total_lines` always holds. -/
theorem code_lines_nonneg (files : List FileEntry) (kv : String × LanguageStats)
    (hkv : kv ∈ (analyze_code_complexity files).languages) :
    kv.2.code_lines = kv.2.total_lines - kv.2.blank_lines - kv.2.comment_lines
      ∧ kv.2.blank_lines + kv.2.comment_lines ≤ kv.2.total_lines
      ∧ 0 ≤ kv.2.code_lines := by
  obtain ⟨hle, hcode⟩ := languages_consistent files kv hkv
  refine ⟨hcode, hle, ?_⟩
  omega

/-- A file of four lines, two blank and one with a comment marker. -/
theorem code_lines_nonneg_witness :
    (".py", commentedStats) ∈ (analyze_code_complexity [⟨"a.py", "# c\n\nx = 1\n \t\n"⟩]).languages
      ∧ (0 : Int) ≤ commentedStats.code_lines := by
  have hmem : (".py", commentedStats)
      ∈ (analyze_code_complexity [⟨"a.py", "# c\n\nx = 1\n \t\n"⟩]).languages := by
    decide!
  exact ⟨hmem, (code_lines_nonneg _ _ hmem).2.2⟩

/-- C10: for the tree whose only file is `app.py` with the single line
`password = "abc123"` (with or without a final newline), `run_security_scan`
returns exactly one finding: issue "Password in Code Detected", line 1, file
`app.py`; of the seven security patterns only that one matches the line. -/
theorem password_scan_scenario :
    run_security_scan [⟨"app.py", "password = \"abc123\""⟩]
        = [{ file := "app.py", line := 1, issue := "Password in Code Detected",
             severity := "HIGH" }]
      ∧ run_security_scan [⟨"app.py", "password = \"abc123\"\n"⟩]
        = [{ file := "app.py", line := 1, issue := "Password in Code Detected",
             severity := "HIGH" }]
      ∧ security_patterns.map
          (fun entry => (entry.1, regex_search "password = \"abc123\"".data entry.2))
        = [("API Key", false), ("AWS Secret", false), ("Database Connection", false),
           ("Hardcoded IP", false), ("JWT Token", false), ("Password in Code", true),
           ("Private Key", false)] := by
  decide

/-! ## Ranges of the scores -/

theorem truncToInt_nonneg {x : ℚ} (h : 0 ≤ x) : 0 ≤ truncToInt x := by
  simp only [truncToInt, h, if_true]
  exact Int.floor_nonneg.mpr h

theorem intToFloat_nonneg {n : Int} (h : 0 ≤ n) : 0 ≤ intToFloat n := by
  apply rne_nonneg
  exact_mod_cast h

theorem sumCommentRatios_nonneg (languages : StrMap LanguageStats)
    (h : ∀ kv ∈ languages, 0 ≤ kv.2.comment_ratio) : 0 ≤ sumCommentRatios languages := by
  have hgen : ∀ (ls : StrMap LanguageStats) (acc : ℚ), 0 ≤ acc →
      (∀ kv ∈ ls, 0 ≤ kv.2.comment_ratio) →
      0 ≤ ls.foldl (fun acc kv => rne binary32 (acc + rne binary32 kv.2.comment_ratio)) acc := by
    intro ls
    induction ls with
    | nil => intro acc hacc _; exact hacc
    | cons kv rest ih =>
      intro acc hacc hall
      apply ih
      · apply rne_nonneg
        have := rne_nonneg binary32 (hall kv (List.mem_cons_self _ _))
        linarith
      · exact fun x hx => hall x (List.mem_cons_of_mem _ hx)
  exact hgen languages 0 (le_refl _) h

theorem avgCommentRatio_nonneg (languages : StrMap LanguageStats)
    (h : ∀ kv ∈ languages, 0 ≤ kv.2.comment_ratio) : 0 ≤ avgCommentRatio languages := by
  unfold avgCommentRatio
  have hs := sumCommentRatios_nonneg languages h
  have hn : 0 ≤ intToFloat (languages.length : Int) := intToFloat_nonneg (Int.natCast_nonneg _)
  simp only []
  split_ifs
  · exact rne_nonneg _ (div_nonneg hs hn)
  · exact hs

/-- C6: for every input whose comment ratios are non-negative (in particular
between 0 and 1), whatever the file count, the dependency total and the number
of findings, each of the four sub-scores and the overall score returned by
`calculate_quality_score` lies between 0 and 100. -/
theorem quality_scores_in_range (complexity : ComplexityResult) (security : List Finding)
    (dependencies : DependencyResult)
    (hratio : ∀ kv ∈ complexity.languages, 0 ≤ kv.2.comment_ratio) :
    (0 ≤ (calculate_quality_score complexity security dependencies).breakdown.security_score
        ∧ (calculate_quality_score complexity security dependencies).breakdown.security_score
          ≤ 100)
      ∧ (0 ≤ (calculate_quality_score complexity security
            dependencies).breakdown.documentation_score
        ∧ (calculate_quality_score complexity security
            dependencies).breakdown.documentation_score ≤ 100)
      ∧ (0 ≤ (calculate_quality_score complexity security
            dependencies).breakdown.organization_score
        ∧ (calculate_quality_score complexity security
            dependencies).breakdown.organization_score ≤ 100)
      ∧ (0 ≤ (calculate_quality_score complexity security
            dependencies).breakdown.dependency_management_score
        ∧ (calculate_quality_score complexity security
            dependencies).breakdown.dependency_management_score ≤ 100)
      ∧ (0 ≤ (calculate_quality_score complexity security dependencies).overall_score
        ∧ (calculate_quality_score complexity security dependencies).overall_score ≤ 100) := by
  have hlen : (0 : Int) ≤ (security.length : Int) := Int.natCast_nonneg _
  have hdoc : 0 ≤ truncToInt
      (rne binary32 (avgCommentRatio complexity.languages * intToFloat 500)) := by
    apply truncToInt_nonneg
    apply rne_nonneg
    exact mul_nonneg (avgCommentRatio_nonneg _ hratio) (intToFloat_nonneg (by decide))
  simp only [calculate_quality_score]
  refine ⟨⟨?_, ?_⟩, ⟨?_, ?_⟩, ⟨?_, ?_⟩, ⟨?_, ?_⟩, ⟨?_, ?_⟩⟩
  · have := min_le_left (30 : Int) ((security.length : Int) * 5)
    omega
  · have : (0 : Int) ≤ min 30 ((security.length : Int) * 5) := le_min (by decide) (by omega)
    omega
  · exact le_min (by decide) hdoc
  · exact min_le_left _ _
  · split_ifs <;> decide
  · split_ifs <;> decide
  · split_ifs <;> decide
  · split_ifs <;> decide
  · exact le_min (by decide) (le_max_left _ _)
  · exact min_le_left _ _

/-- A tree of 30 files with one language of comment ratio `1/4`, two findings. -/
theorem quality_scores_in_range_witness :
    (∀ kv ∈ sampleComplexity.languages, 0 ≤ kv.2.comment_ratio)
    ∧ (0 ≤ (calculate_quality_score sampleComplexity sampleFindings {}).breakdown.documentation_score
      ∧ (calculate_quality_score sampleComplexity sampleFindings {}).breakdown.documentation_score
        ≤ 100)
    ∧ (0 ≤ (calculate_quality_score sampleComplexity sampleFindings {}).overall_score
      ∧ (calculate_quality_score sampleComplexity sampleFindings {}).overall_score ≤ 100) := by
  have hratio : ∀ kv ∈ sampleComplexity.languages, 0 ≤ kv.2.comment_ratio := by
    intro kv hkv
    simp only [sampleComplexity, List.mem_singleton] at hkv
    rw [hkv]
    simp only [commentedStats]
    norm_num
  have h := quality_scores_in_range sampleComplexity sampleFindings {} hratio
  exact ⟨hratio, h.2.1, h.2.2.2.2⟩

/-! ## Test coverage estimate -/

theorem coverageStep_add (counts : Int × Int) (entry : FileEntry) :
    coverageStep counts entry
      = (counts.1 + (coverageStep (0, 0) entry).1, counts.2 + (coverageStep (0, 0) entry).2) := by
  unfold coverageStep
  split_ifs <;> simp

theorem coverage_foldl_add (files : List FileEntry) (counts : Int × Int) :
    files.foldl coverageStep counts
      = (counts.1 + (files.foldl coverageStep (0, 0)).1,
         counts.2 + (files.foldl coverageStep (0, 0)).2) := by
  induction files generalizing counts with
  | nil => simp
  | cons entry rest ih =>
    simp only [List.foldl_cons]
    rw [ih (coverageStep counts entry), ih (coverageStep (0, 0) entry),
      coverageStep_add counts entry]
    simp only [add_assoc]

theorem coverage_counts_bounds (files : List FileEntry) :
    0 ≤ (files.foldl coverageStep (0, 0)).1
      ∧ (files.foldl coverageStep (0, 0)).1 ≤ (files.foldl coverageStep (0, 0)).2 := by
  have hgen : ∀ (fs : List FileEntry) (counts : Int × Int), 0 ≤ counts.1 → counts.1 ≤ counts.2 →
      0 ≤ (fs.foldl coverageStep counts).1
        ∧ (fs.foldl coverageStep counts).1 ≤ (fs.foldl coverageStep counts).2 := by
    intro fs
    induction fs with
    | nil => intro counts h1 h2; exact ⟨h1, h2⟩
    | cons entry rest ih =>
      intro counts h1 h2
      simp only [List.foldl_cons]
      apply ih
      · unfold coverageStep
        split_ifs <;> (try dsimp only) <;> omega
      · unfold coverageStep
        split_ifs <;> (try dsimp only) <;> omega
  exact hgen files (0, 0) (le_refl _) (le_refl _)

/-- Counts of the walk with one more file, inserted anywhere. -/
theorem coverage_counts_insert (pre post : List FileEntry) (f : FileEntry) :
    (pre ++ f :: post).foldl coverageStep (0, 0)
      = (((pre ++ post).foldl coverageStep (0, 0)).1 + (coverageStep (0, 0) f).1,
         ((pre ++ post).foldl coverageStep (0, 0)).2 + (coverageStep (0, 0) f).2) := by
  rw [List.foldl_append, List.foldl_append, List.foldl_cons,
    coverage_foldl_add post (coverageStep _ f), coverage_foldl_add post (List.foldl _ _ pre),
    coverageStep_add (List.foldl _ _ pre) f]
  simp only [add_assoc, add_comm (coverageStep (0, 0) f).1, add_comm (coverageStep (0, 0) f).2]

theorem float_two_pow_24 : rne binary32 16777216 = 16777216 := by
  decide!

/-- Conversion to `float` is exact up to `2 ^ 24`. -/
theorem intToFloat_exact (n : Int) (h0 : 0 ≤ n) (h : n ≤ 2 ^ 24) : intToFloat n = (n : ℚ) := by
  unfold intToFloat
  rcases lt_or_eq_of_le h with hlt | heq
  · apply rne_dyadic binary32 (n : ℚ) n 0 24
    · simp [pow2]
    · rw [abs_of_nonneg (by exact_mod_cast h0)]
      have : pow2 24 = ((2 ^ 24 : Int) : ℚ) := by rw [pow2_of_nonneg (by decide)]; rfl
      rw [this]
      exact_mod_cast hlt
    · decide
  · rw [heq]
    exact float_two_pow_24

theorem coverageOf_succ_le (t c : Int) (h0 : 0 ≤ t) (htc : t ≤ c) (hc : c < 2 ^ 24) :
    coverageOf t c ≤ coverageOf (t + 1) (c + 1) := by
  have hc1 : 0 < c + 1 := by omega
  have hnew : 0 ≤ coverageOf (t + 1) (c + 1) := by
    simp only [coverageOf, hc1, if_true]
    apply rne_nonneg
    apply mul_nonneg
    · apply rne_nonneg
      exact div_nonneg (intToFloat_nonneg (by omega)) (intToFloat_nonneg (by omega))
    · exact intToFloat_nonneg (by decide)
  by_cases hcpos : 0 < c
  · simp only [coverageOf, hcpos, hc1, if_true]
    rw [intToFloat_exact t h0 (by omega), intToFloat_exact c (by omega) (by omega),
      intToFloat_exact (t + 1) (by omega) (by omega),
      intToFloat_exact (c + 1) (by omega) (by omega)]
    apply rne_mono binary32 (by decide)
    apply mul_le_mul_of_nonneg_right _ (intToFloat_nonneg (by decide))
    apply rne_mono binary32 (by decide)
    have hcq : (0 : ℚ) < (c : ℚ) := by exact_mod_cast hcpos
    have hc1q : (0 : ℚ) < ((c + 1 : Int) : ℚ) := by exact_mod_cast hc1
    rw [div_le_div_iff₀ hcq hc1q]
    have htcq : (t : ℚ) ≤ (c : ℚ) := by exact_mod_cast htc
    push_cast
    nlinarith
  · simp only [coverageOf, hcpos, if_false] at hnew ⊢
    exact hnew

/-- Beyond `2 ^ 24` code files the counts are rounded on conversion to `float`
and one more test file can lower the estimate. -/
theorem coverageOf_large_counts :
    coverageOf (2 ^ 24 + 1) (2 ^ 24 + 3) < coverageOf (2 ^ 24) (2 ^ 24 + 2) := by
  decide!

/-- C7, counterexample: `test_b.ts` has the shape `test_*.<ext>` with the source
extension `ts`, yet adding it to the corpus `test_a.py` lowers the estimated
coverage from `100` to `50`: it is counted as a code file, not as a test file. -/
theorem coverage_shape_counterexample :
    (estimate_test_coverage [⟨"test_a.py", ""⟩]).estimated_coverage = 100
      ∧ (estimate_test_coverage [⟨"test_a.py", ""⟩, ⟨"test_b.ts", ""⟩]).estimated_coverage = 50
      ∧ extension "test_b.ts" = ".ts" ∧ matchesTestPattern "test_b.ts" = false := by
  decide!

/-- C7, amended: for every corpus with fewer than `2 ^ 24` code files and every
added file whose name matches one of the four test patterns of the code
(`test_.*\.(py|js|cpp|java)`, `.*_test\.(py|js|cpp|java)`, `.*\.test\.(js|ts)`,
`.*\.spec\.(js|ts)`), wherever the walk meets it, the estimated coverage of the
corpus with that file is at least the one of the corpus alone. -/
theorem coverage_monotone (pre post : List FileEntry) (f : FileEntry)
    (htest : matchesTestPattern f.filename = true)
    (hsize : (estimate_test_coverage (pre ++ post)).code_files < 2 ^ 24) :
    (estimate_test_coverage (pre ++ post)).estimated_coverage
      ≤ (estimate_test_coverage (pre ++ f :: post)).estimated_coverage := by
  obtain ⟨h0, htc⟩ := coverage_counts_bounds (pre ++ post)
  simp only [estimate_test_coverage] at hsize ⊢
  rw [coverage_counts_insert pre post f]
  by_cases hext : isCodeExtension (extension f.filename) = true
  · have hstep : coverageStep (0, 0) f = (1, 1) := by
      simp [coverageStep, hext, htest]
    rw [hstep]
    exact coverageOf_succ_le _ _ h0 htc hsize
  · have hstep : coverageStep (0, 0) f = (0, 0) := by
      simp [coverageStep, hext]
    rw [hstep]
    simp

/-- Adding `b_test.cpp` between two files of a corpus of three. -/
theorem coverage_monotone_witness :
    matchesTestPattern "b_test.cpp" = true
      ∧ (estimate_test_coverage
          ([⟨"a.py", ""⟩, ⟨"test_a.py", ""⟩] ++ [⟨"c.js", ""⟩])).estimated_coverage
        ≤ (estimate_test_coverage
          ([⟨"a.py", ""⟩, ⟨"test_a.py", ""⟩] ++ ⟨"b_test.cpp", ""⟩ :: [⟨"c.js", ""⟩])).estimated_coverage := by
  have htest : matchesTestPattern "b_test.cpp" = true := by decide
  exact ⟨htest, coverage_monotone [⟨"a.py", ""⟩, ⟨"test_a.py", ""⟩] [⟨"c.js", ""⟩]
    ⟨"b_test.cpp", ""⟩ htest (by decide)⟩

/-! ## The weighted sum in double precision -/

theorem d0_2_eq : d0_2 = 3602879701896397 / 18014398509481984 := by
  decide!

/-- The products by the weights `0.3` and `0.2` that are exact. -/
theorem weight_tables :
    (∀ a ∈ [(14 : Int), 15, 16, 17, 18, 19, 20],
        rne binary64 (intToDouble (5 * a) * d0_3) = 3 * (a : ℚ) / 2)
      ∧ (∀ b ∈ [(16 : Int), 20], rne binary64 (intToDouble (5 * b) * d0_2) = (b : ℚ)) := by
  decide!

theorem pow2_values :
    pow2 7 = 128 ∧ pow2 8 = 256 ∧ pow2 53 = 9007199254740992
      ∧ pow2 (-46) = 1 / 70368744177664 ∧ pow2 (-47) = 1 / 140737488355328
      ∧ pow2 (-1) = 1 / 2 ∧ pow2 0 = 1 := by
  decide!

theorem rne64_int (n : Int) (h : |(n : ℚ)| < 9007199254740992) :
    rne binary64 (n : ℚ) = (n : ℚ) := by
  apply rne_dyadic binary64 (n : ℚ) n 0 53
  · rw [pow2_values.2.2.2.2.2.2, mul_one]
  · rw [pow2_values.2.2.1]
    exact h
  · decide

theorem rne64_half_int (m : Int) (h : |(m : ℚ) / 2| < 256) :
    rne binary64 ((m : ℚ) / 2) = (m : ℚ) / 2 := by
  apply rne_dyadic binary64 _ m (-1) 8
  · rw [pow2_values.2.2.2.2.2.1]
    ring
  · rw [pow2_values.2.1]
    exact h
  · decide

theorem rne64_err_256 (x : ℚ) (h : |x| < 256) :
    |rne binary64 x - x| ≤ 1 / 70368744177664 := by
  have h1 := rne_err binary64 x 8 (by rw [pow2_values.2.1]; exact h)
  have h2 : max ((8 : Int) - (binary64.prec : Int)) binary64.qmin = -45 := by decide
  rw [h2] at h1
  have h3 : pow2 (-45) / 2 = 1 / 70368744177664 := by decide!
  rw [h3] at h1
  exact h1

theorem rne64_err_128 (x : ℚ) (h : |x| < 128) :
    |rne binary64 x - x| ≤ 1 / 140737488355328 := by
  have h1 := rne_err binary64 x 7 (by rw [pow2_values.1]; exact h)
  have h2 : max ((7 : Int) - (binary64.prec : Int)) binary64.qmin = -46 := by decide
  rw [h2] at h1
  have h3 : pow2 (-46) / 2 = 1 / 140737488355328 := by decide!
  rw [h3] at h1
  exact h1


/-- A value within half a unit in the last place of a grid point rounds to it. -/
theorem rne_eq_of_near (fmt : FloatFormat) (x y : ℚ) (m : Int)
    (hy : y = (m : ℚ) * pow2 (quantum fmt x)) (h : |x - y| < pow2 (quantum fmt x) / 2) :
    rne fmt x = y := by
  rw [rne_eq]
  have hp := pow2_pos (quantum fmt x)
  have hnear : |x / pow2 (quantum fmt x) - (m : ℚ)| < 1 / 2 := by
    have e : x / pow2 (quantum fmt x) - (m : ℚ) = (x - y) / pow2 (quantum fmt x) := by
      rw [hy]
      field_simp
      ring
    rw [e, abs_div, abs_of_pos hp, div_lt_iff₀ hp]
    linarith
  rw [roundHalfEven_eq_of_near _ m hnear, hy]

/-- The product of a multiple of five by the `double` `0.2` is the exact fifth. -/
theorem product_fifth (k : Int) (h1 : -81 ≤ k) (h2 : k ≤ 81) :
    rne binary64 (((5 * k : Int) : ℚ) * d0_2) = (k : ℚ) := by
  have hx : ((5 * k : Int) : ℚ) * d0_2 = (k : ℚ) + (k : ℚ) / 18014398509481984 := by
    rw [d0_2_eq]
    push_cast
    ring
  rw [hx]
  by_cases hk : k = 0
  · rw [hk]
    simp [rne_zero]
  have hkq : (k : ℚ) ≠ 0 := by exact_mod_cast hk
  have hk1 : (-81 : ℚ) ≤ (k : ℚ) := by exact_mod_cast h1
  have hk2 : (k : ℚ) ≤ 81 := by exact_mod_cast h2
  have habsk : |(k : ℚ)| ≤ 81 := abs_le.mpr ⟨hk1, hk2⟩
  have habsx : |(k : ℚ) + (k : ℚ) / 18014398509481984|
      = |(k : ℚ)| * (18014398509481985 / 18014398509481984) := by
    have : (k : ℚ) + (k : ℚ) / 18014398509481984
        = (k : ℚ) * (18014398509481985 / 18014398509481984) := by ring
    rw [this, abs_mul, abs_of_pos (by norm_num : (0 : ℚ) < 18014398509481985 / 18014398509481984)]
  have hx0 : (k : ℚ) + (k : ℚ) / 18014398509481984 ≠ 0 := by
    intro h0
    have : |(k : ℚ) + (k : ℚ) / 18014398509481984| = 0 := by rw [h0, abs_zero]
    rw [habsx] at this
    have hpos : 0 < |(k : ℚ)| := abs_pos.mpr hkq
    nlinarith
  generalize hxdef : (k : ℚ) + (k : ℚ) / 18014398509481984 = x at *
  obtain ⟨hlo, hhi⟩ := ilog2_spec x hx0
  have hq1 : quantum binary64 x ≤ -46 := by
    have := quantum_le binary64 x hx0 7 (by
      rw [pow2_values.1, habsx]
      nlinarith)
    exact le_trans this (by decide)
  have hq2 : ilog2 x - 52 ≤ quantum binary64 x := by
    unfold quantum
    exact le_trans (by simp [binary64]) (le_max_left _ _)
  obtain ⟨m, hm⟩ := grid_refine k 0 (quantum binary64 x) (by omega)
  rw [pow2_values.2.2.2.2.2.2, mul_one] at hm
  apply rne_eq_of_near binary64 x (k : ℚ) m hm
  have hdiff : |x - (k : ℚ)| = |(k : ℚ)| / 18014398509481984 := by
    rw [← hxdef]
    have : (k : ℚ) + (k : ℚ) / 18014398509481984 - (k : ℚ) = (k : ℚ) / 18014398509481984 := by
      ring
    rw [this, abs_div, abs_of_pos (by norm_num : (0 : ℚ) < 18014398509481984)]
  have hpe : pow2 (ilog2 x + 1) = pow2 (ilog2 x) * 2 := by
    rw [pow2_add]
    congr 1
  have hpq : pow2 (ilog2 x - 52) = pow2 (ilog2 x) / 4503599627370496 := by
    have : ilog2 x - 52 = ilog2 x + (-52) := by ring
    rw [this, pow2_add]
    have : pow2 (-52) = 1 / 4503599627370496 := by decide!
    rw [this]
    ring
  have hmono := pow2_le_pow2 hq2
  rw [hdiff]
  rw [habsx, hpe] at hhi
  rw [hpq] at hmono
  have hkpos : 0 ≤ |(k : ℚ)| := abs_nonneg _
  have hppos := pow2_pos (ilog2 x)
  have hstep : |(k : ℚ)| / 18014398509481984 < pow2 (ilog2 x) / 4503599627370496 / 2 := by
    rw [div_lt_iff₀ (by norm_num : (0 : ℚ) < 18014398509481984)]
    nlinarith
  linarith

theorem sumChain_exact (a c b k : Int) (ha1 : 14 ≤ a) (ha2 : a ≤ 20) (hc1 : 14 ≤ c)
    (hc2 : c ≤ 20) (hb1 : 16 ≤ b) (hb2 : b ≤ 20) (hk1 : -81 ≤ k) (hk2 : k ≤ 20) :
    sumChain a c b (k : ℚ) = 3 * (a : ℚ) / 2 + (k : ℚ) + 3 * (c : ℚ) / 2 + (b : ℚ) := by
  have ha1q : (14 : ℚ) ≤ (a : ℚ) := by exact_mod_cast ha1
  have ha2q : (a : ℚ) ≤ 20 := by exact_mod_cast ha2
  have hc1q : (14 : ℚ) ≤ (c : ℚ) := by exact_mod_cast hc1
  have hc2q : (c : ℚ) ≤ 20 := by exact_mod_cast hc2
  have hb1q : (16 : ℚ) ≤ (b : ℚ) := by exact_mod_cast hb1
  have hb2q : (b : ℚ) ≤ 20 := by exact_mod_cast hb2
  have hk1q : (-81 : ℚ) ≤ (k : ℚ) := by exact_mod_cast hk1
  have hk2q : (k : ℚ) ≤ 20 := by exact_mod_cast hk2
  unfold sumChain
  have e1 : 3 * (a : ℚ) / 2 + (k : ℚ) = ((3 * a + 2 * k : Int) : ℚ) / 2 := by
    push_cast; ring
  have r1 : rne binary64 (3 * (a : ℚ) / 2 + (k : ℚ)) = 3 * (a : ℚ) / 2 + (k : ℚ) := by
    rw [e1]
    apply rne64_half_int
    rw [← e1, abs_lt]
    constructor <;> linarith
  rw [r1]
  have e2 : 3 * (a : ℚ) / 2 + (k : ℚ) + 3 * (c : ℚ) / 2
      = ((3 * a + 2 * k + 3 * c : Int) : ℚ) / 2 := by
    push_cast; ring
  have r2 : rne binary64 (3 * (a : ℚ) / 2 + (k : ℚ) + 3 * (c : ℚ) / 2)
      = 3 * (a : ℚ) / 2 + (k : ℚ) + 3 * (c : ℚ) / 2 := by
    rw [e2]
    apply rne64_half_int
    rw [← e2, abs_lt]
    constructor <;> linarith
  rw [r2]
  have e3 : 3 * (a : ℚ) / 2 + (k : ℚ) + 3 * (c : ℚ) / 2 + (b : ℚ)
      = ((3 * a + 2 * k + 3 * c + 2 * b : Int) : ℚ) / 2 := by
    push_cast; ring
  rw [e3]
  apply rne64_half_int
  rw [← e3, abs_lt]
  constructor <;> linarith

theorem sumChain_approx (a c b : Int) (y z : ℚ) (ha1 : 14 ≤ a) (ha2 : a ≤ 20) (hc1 : 14 ≤ c)
    (hc2 : c ≤ 20) (hb1 : 16 ≤ b) (hb2 : b ≤ 20) (hz1 : -81 ≤ z) (hz2 : z ≤ 20)
    (hy : |y - z| ≤ 1 / 70368744177664) :
    |sumChain a c b y - (3 * (a : ℚ) / 2 + z + 3 * (c : ℚ) / 2 + (b : ℚ))|
      ≤ 1 / 17592186044416 := by
  have ha1q : (14 : ℚ) ≤ (a : ℚ) := by exact_mod_cast ha1
  have ha2q : (a : ℚ) ≤ 20 := by exact_mod_cast ha2
  have hc1q : (14 : ℚ) ≤ (c : ℚ) := by exact_mod_cast hc1
  have hc2q : (c : ℚ) ≤ 20 := by exact_mod_cast hc2
  have hb1q : (16 : ℚ) ≤ (b : ℚ) := by exact_mod_cast hb1
  have hb2q : (b : ℚ) ≤ 20 := by exact_mod_cast hb2
  unfold sumChain
  rw [abs_le] at hy
  obtain ⟨hy1, hy2⟩ := hy
  have s1 := rne64_err_256 (3 * (a : ℚ) / 2 + y) (by
    rw [abs_lt]; constructor <;> linarith)
  rw [abs_le] at s1
  obtain ⟨s1a, s1b⟩ := s1
  generalize rne binary64 (3 * (a : ℚ) / 2 + y) = u1 at *
  have s2 := rne64_err_256 (u1 + 3 * (c : ℚ) / 2) (by
    rw [abs_lt]; constructor <;> linarith)
  rw [abs_le] at s2
  obtain ⟨s2a, s2b⟩ := s2
  generalize rne binary64 (u1 + 3 * (c : ℚ) / 2) = u2 at *
  have s3 := rne64_err_256 (u2 + (b : ℚ)) (by
    rw [abs_lt]; constructor <;> linarith)
  rw [abs_le] at s3
  obtain ⟨s3a, s3b⟩ := s3
  generalize rne binary64 (u2 + (b : ℚ)) = u3 at *
  rw [abs_le]
  constructor <;> linarith

theorem sumChain_le (a c b : Int) (y : ℚ) (ha2 : a ≤ 20) (hc2 : c ≤ 20) (hb2 : b ≤ 20)
    (hy : y ≤ -81) : sumChain a c b y ≤ -1 := by
  have ha2q : (a : ℚ) ≤ 20 := by exact_mod_cast ha2
  have hc2q : (c : ℚ) ≤ 20 := by exact_mod_cast hc2
  have hb2q : (b : ℚ) ≤ 20 := by exact_mod_cast hb2
  have hint : ∀ n : Int, -100 ≤ n → n ≤ 100 → rne binary64 (n : ℚ) = (n : ℚ) := by
    intro n h1 h2
    apply rne64_int
    have h1q : (-100 : ℚ) ≤ (n : ℚ) := by exact_mod_cast h1
    have h2q : (n : ℚ) ≤ 100 := by exact_mod_cast h2
    rw [abs_lt]
    constructor <;> linarith
  unfold sumChain
  have s1 : rne binary64 (3 * (a : ℚ) / 2 + y) ≤ -51 := by
    have := rne_mono binary64 (by decide) (show 3 * (a : ℚ) / 2 + y ≤ ((-51 : Int) : ℚ) by
      push_cast; linarith)
    rw [hint (-51) (by decide) (by decide)] at this
    exact_mod_cast this
  generalize rne binary64 (3 * (a : ℚ) / 2 + y) = u1 at *
  have s2 : rne binary64 (u1 + 3 * (c : ℚ) / 2) ≤ -21 := by
    have := rne_mono binary64 (by decide) (show u1 + 3 * (c : ℚ) / 2 ≤ ((-21 : Int) : ℚ) by
      push_cast; linarith)
    rw [hint (-21) (by decide) (by decide)] at this
    exact_mod_cast this
  generalize rne binary64 (u1 + 3 * (c : ℚ) / 2) = u2 at *
  have := rne_mono binary64 (by decide) (show u2 + (b : ℚ) ≤ ((-1 : Int) : ℚ) by
    push_cast; linarith)
  rw [hint (-1) (by decide) (by decide)] at this
  exact_mod_cast this

/-- Under the final clamp, truncation towards zero and the floor agree. -/
theorem clamp_trunc_eq_floor (x : ℚ) :
    min 100 (max 0 (truncToInt x)) = min 100 (max 0 ⌊x⌋) := by
  unfold truncToInt
  by_cases hx : 0 ≤ x
  · simp only [hx, if_true]
  · simp only [hx, if_false]
    have hneg : x ≤ ((0 : Int) : ℚ) := by
      push_cast
      exact le_of_lt (not_le.mp hx)
    have h1 : ⌈x⌉ ≤ 0 := Int.ceil_le.mpr hneg
    have h2 : ⌊x⌋ ≤ 0 := le_trans (Int.floor_le_ceil x) h1
    rw [max_eq_left h1, max_eq_left h2]

/-- The product of the documentation score by the `double` `0.2`, up to rounding. -/
theorem product_fifth_approx (d : Int) (h1 : -405 ≤ d) (h2 : d ≤ 100) :
    |rne binary64 ((d : ℚ) * d0_2) - (d : ℚ) / 5| ≤ 1 / 70368744177664 := by
  have h1q : (-405 : ℚ) ≤ (d : ℚ) := by exact_mod_cast h1
  have h2q : (d : ℚ) ≤ 100 := by exact_mod_cast h2
  have hx : (d : ℚ) * d0_2 = (d : ℚ) / 5 + (d : ℚ) / 90071992547409920 := by
    rw [d0_2_eq]
    ring
  have herr := rne64_err_128 ((d : ℚ) * d0_2) (by
    rw [hx, abs_lt]
    constructor <;> linarith)
  rw [abs_le] at herr ⊢
  obtain ⟨e1, e2⟩ := herr
  rw [hx] at e1 e2
  rw [hx]
  constructor <;> linarith

theorem weightedSum_eq_sumChain (a c b d : Int)
    (ha : a ∈ [(14 : Int), 15, 16, 17, 18, 19, 20]) (hc : c ∈ [(14 : Int), 17, 20])
    (hb : b ∈ [(16 : Int), 20]) :
    weightedSum (5 * a) d (5 * c) (5 * b)
      = sumChain a c b (rne binary64 (intToDouble d * d0_2)) := by
  have hc' : c ∈ [(14 : Int), 15, 16, 17, 18, 19, 20] := by
    simp only [List.mem_cons, List.mem_singleton, List.not_mem_nil, or_false] at hc ⊢
    omega
  unfold weightedSum sumChain
  rw [weight_tables.1 a ha, weight_tables.1 c hc', weight_tables.2 b hb]

/-- The truncated double-precision sum and the floor of the exact weighted sum
agree under the final clamp, for every documentation score. -/
theorem weightedSum_clamp (a c b d : Int)
    (ha : a ∈ [(14 : Int), 15, 16, 17, 18, 19, 20]) (hc : c ∈ [(14 : Int), 17, 20])
    (hb : b ∈ [(16 : Int), 20]) (hd : d ≤ 100) :
    min 100 (max 0 (truncToInt (weightedSum (5 * a) d (5 * c) (5 * b))))
      = min 100 (max 0
          ⌊(3 * ((5 * a : Int) : ℚ) + 2 * (d : ℚ) + 3 * ((5 * c : Int) : ℚ)
            + 2 * ((5 * b : Int) : ℚ)) / 10⌋) := by
  have ha' : 14 ≤ a ∧ a ≤ 20 := by
    simp only [List.mem_cons, List.mem_singleton, List.not_mem_nil, or_false] at ha
    omega
  have hc' : 14 ≤ c ∧ c ≤ 20 := by
    simp only [List.mem_cons, List.mem_singleton, List.not_mem_nil, or_false] at hc
    omega
  have hb' : 16 ≤ b ∧ b ≤ 20 := by
    simp only [List.mem_cons, List.mem_singleton, List.not_mem_nil, or_false] at hb
    omega
  obtain ⟨ha1, ha2⟩ := ha'
  obtain ⟨hc1, hc2⟩ := hc'
  obtain ⟨hb1, hb2⟩ := hb'
  have ha1q : (14 : ℚ) ≤ (a : ℚ) := by exact_mod_cast ha1
  have ha2q : (a : ℚ) ≤ 20 := by exact_mod_cast ha2
  have hc1q : (14 : ℚ) ≤ (c : ℚ) := by exact_mod_cast hc1
  have hc2q : (c : ℚ) ≤ 20 := by exact_mod_cast hc2
  have hb1q : (16 : ℚ) ≤ (b : ℚ) := by exact_mod_cast hb1
  have hb2q : (b : ℚ) ≤ 20 := by exact_mod_cast hb2
  have hE : (3 * ((5 * a : Int) : ℚ) + 2 * (d : ℚ) + 3 * ((5 * c : Int) : ℚ)
        + 2 * ((5 * b : Int) : ℚ)) / 10
      = 3 * (a : ℚ) / 2 + (d : ℚ) / 5 + 3 * (c : ℚ) / 2 + (b : ℚ) := by
    push_cast
    ring
  rw [weightedSum_eq_sumChain a c b d ha hc hb, hE]
  by_cases hlow : d < -405
  · -- far below zero both sides are clamped to `0`
    have hdq : (d : ℚ) ≤ -406 := by exact_mod_cast (show d ≤ -406 by omega)
    have hconv : intToDouble d ≤ -405 := by
      have := rne_mono binary64 (by decide) (show (d : ℚ) ≤ ((-405 : Int) : ℚ) by
        push_cast; linarith)
      rw [rne64_int (-405) (by norm_num)] at this
      unfold intToDouble
      exact_mod_cast this
    have hprod : rne binary64 (intToDouble d * d0_2) ≤ -81 := by
      have hle : intToDouble d * d0_2 ≤ ((-81 : Int) : ℚ) := by
        rw [d0_2_eq]
        push_cast
        linarith
      have := rne_mono binary64 (by decide) hle
      rw [rne64_int (-81) (by norm_num)] at this
      exact_mod_cast this
    have hF := sumChain_le a c b _ ha2 hc2 hb2 hprod
    have hleft : truncToInt (sumChain a c b (rne binary64 (intToDouble d * d0_2))) ≤ 0 := by
      unfold truncToInt
      have hnot : ¬ 0 ≤ sumChain a c b (rne binary64 (intToDouble d * d0_2)) := by
        intro h
        linarith
      simp only [hnot, if_false]
      apply Int.ceil_le.mpr
      push_cast
      linarith
    have hright : ⌊3 * (a : ℚ) / 2 + (d : ℚ) / 5 + 3 * (c : ℚ) / 2 + (b : ℚ)⌋ ≤ 0 := by
      have : ⌊3 * (a : ℚ) / 2 + (d : ℚ) / 5 + 3 * (c : ℚ) / 2 + (b : ℚ)⌋ < 1 := by
        apply Int.floor_lt.mpr
        push_cast
        linarith
      omega
    rw [max_eq_left hleft, max_eq_left hright]
  · have hd1 : -405 ≤ d := by omega
    have hd1q : (-405 : ℚ) ≤ (d : ℚ) := by exact_mod_cast hd1
    have hd2q : (d : ℚ) ≤ 100 := by exact_mod_cast hd
    have hconv : intToDouble d = (d : ℚ) := by
      unfold intToDouble
      apply rne64_int
      rw [abs_lt]
      constructor <;> linarith
    rw [hconv, clamp_trunc_eq_floor]
    by_cases hdiv : d % 5 = 0
    · -- every operand and every partial sum is representable
      obtain ⟨k, hk⟩ : ∃ k : Int, d = 5 * k := ⟨d / 5, by omega⟩
      have hkq : (d : ℚ) = ((5 * k : Int) : ℚ) := by rw [hk]
      have hk5 : (d : ℚ) / 5 = (k : ℚ) := by
        rw [hkq]; push_cast; ring
      rw [hk5, hkq, product_fifth k (by omega) (by omega),
        sumChain_exact a c b k ha1 ha2 hc1 hc2 hb1 hb2 (by omega) (by omega)]
    · -- the exact sum is at least a tenth away from every integer
      have happrox := sumChain_approx a c b (rne binary64 ((d : ℚ) * d0_2)) ((d : ℚ) / 5)
        ha1 ha2 hc1 hc2 hb1 hb2 (by linarith) (by linarith) (product_fifth_approx d hd1 hd)
      rw [abs_le] at happrox
      obtain ⟨l1, l2⟩ := happrox
      generalize sumChain a c b (rne binary64 ((d : ℚ) * d0_2)) = F at *
      have hj : 3 * (a : ℚ) / 2 + (d : ℚ) / 5 + 3 * (c : ℚ) / 2 + (b : ℚ)
          = ((15 * a + 2 * d + 15 * c + 10 * b : Int) : ℚ) / 10 := by
        push_cast; ring
      rw [hj] at l1 l2 ⊢
      generalize hjdef : 15 * a + 2 * d + 15 * c + 10 * b = j at *
      have hj5 : j % 5 ≠ 0 := by omega
      have hjq : (j : ℚ) = 10 * ((j / 10 : Int) : ℚ) + ((j % 10 : Int) : ℚ) := by
        have := Int.ediv_add_emod j 10
        exact_mod_cast this.symm
      have hr1 : 1 ≤ j % 10 := by omega
      have hr2 : j % 10 ≤ 9 := by omega
      have hr1q : (1 : ℚ) ≤ ((j % 10 : Int) : ℚ) := by exact_mod_cast hr1
      have hr2q : ((j % 10 : Int) : ℚ) ≤ 9 := by exact_mod_cast hr2
      have hfl1 : ⌊F⌋ = j / 10 := by
        rw [Int.floor_eq_iff]
        constructor <;> linarith
      have hfl2 : ⌊(j : ℚ) / 10⌋ = j / 10 := by
        rw [Int.floor_eq_iff]
        constructor <;> linarith
      rw [hfl1, hfl2]

/-! ## The overall score and the documentation score -/

/-- C1, counterexample: one finding, documentation score 1, at most 20 files and
some dependency give the sub-scores 95, 1, 100, 100, whose weighted sum is 78.7;
the code returns 78, the rounded value of the claim is 79. -/
theorem overall_score_round_counterexample :
    (calculate_quality_score sparseComplexity [⟨"a.py", 1, "API Key Detected", "HIGH"⟩]
        sampleDependencies).breakdown
        = { security_score := 95, security_issues := 1, documentation_score := 1,
            documentation_comment_ratio := 1 / 256, organization_score := 100,
            organization_files := 1, dependency_management_score := 100 }
      ∧ (calculate_quality_score sparseComplexity [⟨"a.py", 1, "API Key Detected", "HIGH"⟩]
        sampleDependencies).overall_score = 78
      ∧ claimedOverallScore
          (calculate_quality_score sparseComplexity [⟨"a.py", 1, "API Key Detected", "HIGH"⟩]
            sampleDependencies).breakdown = 79 := by
  decide!

/-- C1, amended: for every input, `overall_score` is the weighted sum
`0.30 × security + 0.20 × documentation + 0.30 × organization + 0.20 ×
dependency_management` of the four sub-scores reported in the breakdown,
rounded down to an integer (truncated, not rounded to nearest) and clamped to
`[0, 100]`; the security term is the post-penalty value `100 − min(30, 5 × n)`. -/
theorem overall_score_formula (complexity : ComplexityResult) (security : List Finding)
    (dependencies : DependencyResult) :
    (calculate_quality_score complexity security dependencies).overall_score
        = min 100 (max 0
            ⌊(3 / 10 : ℚ)
                * (calculate_quality_score complexity security
                    dependencies).breakdown.security_score
              + (2 / 10 : ℚ)
                * (calculate_quality_score complexity security
                    dependencies).breakdown.documentation_score
              + (3 / 10 : ℚ)
                * (calculate_quality_score complexity security
                    dependencies).breakdown.organization_score
              + (2 / 10 : ℚ)
                * (calculate_quality_score complexity security
                    dependencies).breakdown.dependency_management_score⌋)
      ∧ (calculate_quality_score complexity security dependencies).breakdown.security_score
        = 100 - min 30 (5 * (security.length : Int)) := by
  refine ⟨?_, by simp only [calculate_quality_score]; rw [Int.mul_comm]⟩
  have hn : (0 : Int) ≤ (security.length : Int) := Int.natCast_nonneg _
  obtain ⟨a, ha, hs⟩ : ∃ a ∈ [(14 : Int), 15, 16, 17, 18, 19, 20],
      (100 : Int) - min 30 ((security.length : Int) * 5) = 5 * a := by
    refine ⟨20 - min 6 (security.length : Int), ?_, ?_⟩
    · simp only [List.mem_cons, List.mem_singleton, List.not_mem_nil, or_false]
      rcases le_total (6 : Int) (security.length : Int) with h | h
      · rw [min_eq_left h]; decide
      · rw [min_eq_right h]; omega
    · rcases le_total (6 : Int) (security.length : Int) with h | h
      · rw [min_eq_left h, min_eq_left (by omega)]; rfl
      · rw [min_eq_right h, min_eq_right (by omega)]; omega
  obtain ⟨c, hc, ho⟩ : ∃ c ∈ [(14 : Int), 17, 20],
      (if complexity.total_files > 50 then (70 : Int)
        else if complexity.total_files > 20 then 85 else 100) = 5 * c := by
    split_ifs
    · exact ⟨14, by decide, rfl⟩
    · exact ⟨17, by decide, rfl⟩
    · exact ⟨20, by decide, rfl⟩
  obtain ⟨b, hb, hp⟩ : ∃ b ∈ [(16 : Int), 20],
      (if decide (dependencies.total_dependencies > 0) = true then (100 : Int) else 80)
        = 5 * b := by
    split_ifs
    · exact ⟨20, by decide, rfl⟩
    · exact ⟨16, by decide, rfl⟩
  simp only [calculate_quality_score]
  rw [hs, ho, hp, weightedSum_clamp a c b _ ha hc hb (min_le_left 100 _)]
  congr 3
  push_cast
  ring

theorem sumCommentRatios_eq_floatSum (languages : StrMap LanguageStats) :
    sumCommentRatios languages
      = floatSum (languages.map (fun kv => rne binary32 kv.2.comment_ratio)) := by
  unfold sumCommentRatios floatSum
  rw [List.foldl_map]

theorem avgCommentRatio_eq_floatMean (languages : StrMap LanguageStats) :
    avgCommentRatio languages
      = floatMean (languages.map (fun kv => rne binary32 kv.2.comment_ratio)) := by
  unfold avgCommentRatio floatMean
  rw [sumCommentRatios_eq_floatSum]
  cases languages with
  | nil => simp [floatSum]
  | cons kv rest =>
    simp only [List.map_cons, List.isEmpty_cons, List.length_cons, List.length_map,
      Bool.false_eq_true, if_false]
    rw [if_pos (by omega)]

/-- C2, counterexample: for one language with comment ratio `1/256` (one comment
line in 256 lines) `500 × avg_ratio` is `1.953125`; the code reports the
documentation score `1`, the rounded value of the claim is `2`. -/
theorem documentation_score_round_counterexample :
    commentRatio { lines := 256, comment_lines := 1 } = 1 / 256
      ∧ (calculate_quality_score sparseComplexity [] {}).breakdown.documentation_score = 1
      ∧ claimedDocumentationScore (sparseComplexity.languages.map (fun kv => kv.2.comment_ratio))
        = 2 := by
  decide!

/-- The product by `500` is a `float`: for the ratio of one comment line in 100
lines the reported score is `5`, although `500` times the reported ratio is
below `5` in exact arithmetic. -/
theorem documentation_score_float_product :
    (calculate_quality_score
        ⟨1, [(".py", languageRecord { lines := 100, comment_lines := 1 })]⟩ []
        {}).breakdown.documentation_score = 5
      ∧ ⌊500 * (languageRecord { lines := 100, comment_lines := 1 }).comment_ratio⌋ = 4 := by
  decide!

/-- C2, amended: the documentation sub-score is `min(100, trunc(500 × avg_ratio))`,
truncated towards zero instead of rounded, where `avg_ratio` (the reported
`comment_ratio`) is the unweighted mean of the per-extension ratios computed in
single precision (the `float` sum in key order divided by the number of
extensions) and the product is a `float`; without languages the score is `0`,
and for non-negative ratios the truncation is the floor. -/
theorem documentation_score_formula (complexity : ComplexityResult) (security : List Finding)
    (dependencies : DependencyResult) :
    (calculate_quality_score complexity security dependencies).breakdown.documentation_score
        = min 100 (truncToInt (rne binary32
            (floatMean (complexity.languages.map (fun kv => rne binary32 kv.2.comment_ratio))
              * 500)))
      ∧ (calculate_quality_score complexity security
          dependencies).breakdown.documentation_comment_ratio
        = floatMean (complexity.languages.map (fun kv => rne binary32 kv.2.comment_ratio))
      ∧ ((calculate_quality_score ⟨complexity.total_files, []⟩ security
            dependencies).breakdown.documentation_comment_ratio = 0
        ∧ (calculate_quality_score ⟨complexity.total_files, []⟩ security
            dependencies).breakdown.documentation_score = 0)
      ∧ ((∀ kv ∈ complexity.languages, 0 ≤ kv.2.comment_ratio) →
          (calculate_quality_score complexity security
            dependencies).breakdown.documentation_score
            = min 100 ⌊rne binary32
                (floatMean (complexity.languages.map (fun kv => rne binary32 kv.2.comment_ratio))
                  * 500)⌋) := by
  have h500 : intToFloat 500 = 500 := by
    have := intToFloat_exact 500 (by decide) (by decide)
    exact_mod_cast this
  have hdoc : (calculate_quality_score complexity security
      dependencies).breakdown.documentation_score
        = min 100 (truncToInt (rne binary32
            (floatMean (complexity.languages.map (fun kv => rne binary32 kv.2.comment_ratio))
              * 500))) := by
    simp only [calculate_quality_score]
    rw [avgCommentRatio_eq_floatMean, h500]
  refine ⟨hdoc, ?_, ?_, ?_⟩
  · simp only [calculate_quality_score]
    rw [avgCommentRatio_eq_floatMean]
  · have hempty : avgCommentRatio [] = 0 := by decide!
    have hzero : min (100 : Int) (truncToInt 0) = 0 := by decide!
    simp only [calculate_quality_score]
    rw [hempty, zero_mul, rne_zero, hzero]
    exact ⟨rfl, rfl⟩
  · intro hnn
    rw [hdoc]
    have hmean := avgCommentRatio_nonneg complexity.languages hnn
    rw [avgCommentRatio_eq_floatMean] at hmean
    have hprod : 0 ≤ rne binary32
        (floatMean (complexity.languages.map (fun kv => rne binary32 kv.2.comment_ratio))
          * 500) :=
      rne_nonneg _ (mul_nonneg hmean (by norm_num))
    simp only [truncToInt, hprod, if_true]

/-- Two languages with comment ratios `1/4` and `1/256`. -/
theorem documentation_score_formula_witness :
    (∀ kv ∈ twoLanguages.languages, 0 ≤ kv.2.comment_ratio)
      ∧ (calculate_quality_score twoLanguages [] {}).breakdown.documentation_score
        = min 100 ⌊rne binary32
            (floatMean (twoLanguages.languages.map (fun kv => rne binary32 kv.2.comment_ratio))
              * 500)⌋
      ∧ (calculate_quality_score twoLanguages [] {}).breakdown.documentation_score = 63 := by
  have hnn : ∀ kv ∈ twoLanguages.languages, 0 ≤ kv.2.comment_ratio := by decide!
  exact ⟨hnn, (documentation_score_formula twoLanguages [] {}).2.2.2 hnn, by decide!⟩

/-! ## The scenario without comments, dependencies and findings -/

theorem sumCommentRatios_zero (languages : StrMap LanguageStats)
    (h : ∀ kv ∈ languages, kv.2.comment_ratio = 0) : sumCommentRatios languages = 0 := by
  have hgen : ∀ ls : StrMap LanguageStats, (∀ kv ∈ ls, kv.2.comment_ratio = 0) →
      ls.foldl (fun acc kv => rne binary32 (acc + rne binary32 kv.2.comment_ratio)) 0 = 0 := by
    intro ls
    induction ls with
    | nil => intro _; rfl
    | cons kv rest ih =>
      intro hall
      rw [List.foldl_cons, hall kv (List.mem_cons_self _ _), rne_zero, add_zero, rne_zero]
      exact ih (fun x hx => hall x (List.mem_cons_of_mem _ hx))
  exact hgen languages h

theorem avgCommentRatio_zero (languages : StrMap LanguageStats)
    (h : ∀ kv ∈ languages, kv.2.comment_ratio = 0) : avgCommentRatio languages = 0 := by
  unfold avgCommentRatio
  simp only [sumCommentRatios_zero languages h, zero_div, rne_zero, ite_self]

/-- C11: with 60 files, no dependency, no finding and every language's comment
ratio equal to 0, `calculate_quality_score` returns the organization score 70,
the dependency_management score 80, the security score 100, the documentation
score 0 and the overall score 67. -/
theorem uncommented_scenario (languages : StrMap LanguageStats)
    (dependencies : DependencyResult)
    (hratio : ∀ kv ∈ languages, kv.2.comment_ratio = 0)
    (hdeps : dependencies.total_dependencies = 0) :
    calculate_quality_score ⟨60, languages⟩ [] dependencies
      = { overall_score := 67,
          breakdown :=
            { security_score := 100, security_issues := 0, documentation_score := 0,
              documentation_comment_ratio := 0, organization_score := 70,
              organization_files := 60, dependency_management_score := 80 } } := by
  have hclosed : calculate_quality_score ⟨60, []⟩ [] {}
      = { overall_score := 67,
          breakdown :=
            { security_score := 100, security_issues := 0, documentation_score := 0,
              documentation_comment_ratio := 0, organization_score := 70,
              organization_files := 60, dependency_management_score := 80 } } := by
    decide!
  have hempty : avgCommentRatio [] = 0 :=
    avgCommentRatio_zero [] (fun kv hkv => absurd hkv (List.not_mem_nil _))
  rw [← hclosed]
  simp only [calculate_quality_score, avgCommentRatio_zero languages hratio, hempty, hdeps]

/-- The scenario with two languages of 900 and 1500 lines and no manifest. -/
theorem uncommented_scenario_witness :
    (∀ kv ∈ uncommentedComplexity.languages, kv.2.comment_ratio = 0)
      ∧ analyze_dependencies emptyRoot = .ok {}
      ∧ ({} : DependencyResult).total_dependencies = 0
      ∧ (calculate_quality_score uncommentedComplexity [] {}).overall_score = 67
      ∧ (calculate_quality_score uncommentedComplexity []
          {}).breakdown.organization_score = 70 := by
  have hratio : ∀ kv ∈ uncommentedComplexity.languages, kv.2.comment_ratio = 0 := by decide!
  have hdeps : ({} : DependencyResult).total_dependencies = 0 := rfl
  have h := uncommented_scenario uncommentedComplexity.languages {} hratio hdeps
  have hcx : uncommentedComplexity = ⟨60, uncommentedComplexity.languages⟩ := rfl
  rw [hcx]
  exact ⟨hratio, rfl, hdeps, by rw [h], by rw [h]⟩

/-! ## README quality checker -/

theorem scanReadme_exists (content : String) : (scanReadme content).«exists» = true := rfl

theorem findReadme_append (root : RootDir) (before rest : List String)
    (h : ∀ n ∈ before, root n = .absent) :
    findReadme root (before ++ rest) = findReadme root rest := by
  induction before with
  | nil => rfl
  | cons n ns ih =>
    have hn := h n (List.mem_cons_self _ _)
    simp only [List.cons_append, findReadme, fs_exists, hn]
    exact ih (fun x hx => h x (List.mem_cons_of_mem _ hx))

/-- C12, counterexample: at a root where `README.md` exists as a directory (and
`README.MD` as a file), a candidate exists, yet `check_readme_quality` returns
no result with `exists` true: the read of `README.md` throws. -/
theorem readme_directory_counterexample :
    fs_exists directoryReadmeRoot "README.md" = .ok true
      ∧ directoryReadmeRoot "README.md" = .directory
      ∧ directoryReadmeRoot "README.MD" = .file "# Demo\n"
      ∧ check_readme_quality directoryReadmeRoot = .error (.ios_failure "README.md")
      ∧ ¬ ∃ quality, check_readme_quality directoryReadmeRoot = .ok quality
          ∧ quality.«exists» = true := by
  refine ⟨rfl, rfl, rfl, rfl, ?_⟩
  rintro ⟨quality, h, _⟩
  have herr : check_readme_quality directoryReadmeRoot = .error (.ios_failure "README.md") := rfl
  rw [herr] at h
  cases h

/-- C12, amended: when none of the candidates `README.md`, `README.MD`,
`readme.md`, `README.txt` exists at the root, `check_readme_quality` returns
exactly `{exists: false, score: 0, missing_sections: ["README file not found"]}`,
a constant obtained without any section scan.  When a candidate exists, the
first existing one in that order is read: if it reads as a file, the result is
the section scan of its content, with `exists` true; if it is a directory, the
call returns nothing and ends in the exception thrown by the read.  The call
also ends in an exception at a candidate whose status cannot be obtained, when
every candidate before it is absent.  A returned result has `exists` true
exactly when some candidate exists. -/
theorem readme_candidate_order (root : RootDir) :
    ((∀ name ∈ readme_names, root name = .absent) →
        check_readme_quality root
          = .ok { «exists» := false, score := 0, missing_sections := ["README file not found"] })
      ∧ (∀ (before after : List String) (name : String),
          readme_names = before ++ name :: after → (∀ n ∈ before, root n = .absent) →
            (∀ content, root name = .file content →
              check_readme_quality root = .ok (scanReadme content))
            ∧ (root name = .directory →
              check_readme_quality root = .error (.ios_failure name))
            ∧ (root name = .inaccessible →
              check_readme_quality root = .error (.filesystem_error name)))
      ∧ (∀ quality, check_readme_quality root = .ok quality →
          (quality.«exists» = true ↔ ∃ name ∈ readme_names, fs_exists root name = .ok true)) := by
  refine ⟨?_, ?_, ?_⟩
  · intro hnone
    have h := findReadme_append root readme_names [] hnone
    rw [List.append_nil] at h
    rw [check_readme_quality, h]
    rfl
  · intro before after name hsplit hbefore
    have h := findReadme_append root before (name :: after) hbefore
    rw [← hsplit] at h
    refine ⟨?_, ?_, ?_⟩
    · intro content hname
      rw [check_readme_quality, h]
      simp only [findReadme, fs_exists, readContent, hname]
    · intro hname
      rw [check_readme_quality, h]
      simp only [findReadme, fs_exists, readContent, hname]
    · intro hname
      rw [check_readme_quality, h]
      simp only [findReadme, fs_exists, readContent, hname]
  · intro quality hq
    simp only [readme_names, List.mem_cons, List.mem_singleton, List.not_mem_nil, or_false,
      exists_eq_or_imp, exists_eq_left]
    simp only [check_readme_quality, readme_names, findReadme, fs_exists, readContent] at hq ⊢
    rcases h1 : root "README.md" with _ | c1 | _ | _ <;>
      rcases h2 : root "README.MD" with _ | c2 | _ | _ <;>
      rcases h3 : root "readme.md" with _ | c3 | _ | _ <;>
      rcases h4 : root "README.txt" with _ | c4 | _ | _ <;>
      simp only [h1, h2, h3, h4, Except.ok.injEq] at hq <;>
      cases hq <;>
      simp [scanReadme_exists]

/-- The empty root; a root where the second and the third candidate are files;
a root where the first candidate is a directory; a root where the third
candidate is a symbolic link that loops. -/
theorem readme_candidate_order_witness :
    (∀ name ∈ readme_names, emptyRoot name = .absent)
      ∧ check_readme_quality emptyRoot
        = .ok { «exists» := false, score := 0, missing_sections := ["README file not found"] }
      ∧ readme_names = ["README.md"] ++ "README.MD" :: ["readme.md", "README.txt"]
      ∧ (∀ n ∈ ["README.md"], twoReadmeRoot n = .absent)
      ∧ twoReadmeRoot "README.MD" = .file "# Demo\nInstall with pip.\n"
      ∧ check_readme_quality twoReadmeRoot = .ok (scanReadme "# Demo\nInstall with pip.\n")
      ∧ scanReadme "# Demo\nInstall with pip.\n"
        = { «exists» := true, score := 33,
            missing_sections := ["Usage", "Contributing", "License", "Dependencies"] }
      ∧ readme_names = [] ++ "README.md" :: ["README.MD", "readme.md", "README.txt"]
      ∧ directoryReadmeRoot "README.md" = .directory
      ∧ check_readme_quality directoryReadmeRoot = .error (.ios_failure "README.md")
      ∧ readme_names = ["README.md", "README.MD"] ++ "readme.md" :: ["README.txt"]
      ∧ (∀ n ∈ ["README.md", "README.MD"], symlinkLoopRoot "readme.md" n = .absent)
      ∧ symlinkLoopRoot "readme.md" "readme.md" = .inaccessible
      ∧ check_readme_quality (symlinkLoopRoot "readme.md")
        = .error (.filesystem_error "readme.md")
      ∧ ((scanReadme "# Demo\nInstall with pip.\n").«exists» = true
          ↔ ∃ name ∈ readme_names, fs_exists twoReadmeRoot name = .ok true) := by
  have h0 := readme_candidate_order emptyRoot
  have h1 := readme_candidate_order twoReadmeRoot
  have h2 := readme_candidate_order directoryReadmeRoot
  have h3 := readme_candidate_order (symlinkLoopRoot "readme.md")
  have hnone : ∀ name ∈ readme_names, emptyRoot name = .absent := fun _ _ => rfl
  have hb1 : ∀ n ∈ ["README.md"], twoReadmeRoot n = .absent := by decide
  have hb3 : ∀ n ∈ ["README.md", "README.MD"], symlinkLoopRoot "readme.md" n = .absent := by
    decide
  have hfile := (h1.2.1 ["README.md"] ["readme.md", "README.txt"] "README.MD" rfl hb1).1 _ rfl
  exact ⟨hnone, h0.1 hnone, rfl, hb1, rfl, hfile, by decide, rfl, rfl,
    (h2.2.1 [] ["README.MD", "readme.md", "README.txt"] "README.md" rfl
      (fun _ h => absurd h (List.not_mem_nil _))).2.1 rfl,
    rfl, hb3, rfl,
    (h3.2.1 ["README.md", "README.MD"] ["README.txt"] "readme.md" rfl hb3).2.2 rfl,
    h1.2.2 _ hfile⟩

/-! ## Order independence of the complexity analysis -/

theorem addStats_assoc (a b c : FileStats) :
    FileStats.add (FileStats.add a b) c = FileStats.add a (FileStats.add b c) := by
  simp only [FileStats.add, Int.add_assoc]

theorem sumCounters_nil : sumCounters [] = {} := rfl

theorem sumCounters_append_singleton (stats : List FileStats) (s : FileStats) :
    sumCounters (stats ++ [s]) = FileStats.add (sumCounters stats) s := by
  simp [sumCounters, FileStats.add]

theorem scanLine_add (stats : FileStats) (line : List Char) :
    scanLine stats line = FileStats.add stats (scanLine {} line) := by
  cases hb : isBlankLine line <;> cases hc : hasCommentMarker line <;>
    simp [scanLine, FileStats.add, hb, hc]

theorem scanFile_add (content : String) (stats : FileStats) :
    scanFile content stats = FileStats.add stats (scanFile content {}) := by
  unfold scanFile
  generalize getlines content = ls
  induction ls generalizing stats with
  | nil => simp [FileStats.add]
  | cons l rest ih =>
    simp only [List.foldl_cons]
    rw [ih (scanLine stats l), ih (scanLine {} l), scanLine_add stats l, addStats_assoc]


theorem StrMap.modify_keys {α : Type} (k : String) (dflt : α) (f : α → α) (m : StrMap α) :
    ∀ x ∈ StrMap.modify k dflt f m, x.1 = k ∨ ∃ y ∈ m, y.1 = x.1 := by
  induction m with
  | nil =>
    intro x hx
    simp only [StrMap.modify, List.mem_singleton] at hx
    exact Or.inl (by rw [hx])
  | cons head rest ih =>
    obtain ⟨k', v⟩ := head
    intro x hx
    unfold StrMap.modify at hx
    by_cases h1 : k = k'
    · simp only [h1, if_true, List.mem_cons] at hx
      rcases hx with hx | hx
      · exact Or.inl (by rw [hx, h1])
      · exact Or.inr ⟨x, List.mem_cons_of_mem _ hx, rfl⟩
    · by_cases h2 : k < k'
      · simp only [h1, h2, if_true, if_false, List.mem_cons] at hx
        rcases hx with hx | hx | hx
        · exact Or.inl (by rw [hx])
        · exact Or.inr ⟨(k', v), List.mem_cons_self _ _, by rw [hx]⟩
        · exact Or.inr ⟨x, List.mem_cons_of_mem _ hx, rfl⟩
      · simp only [h1, h2, if_false, List.mem_cons] at hx
        rcases hx with hx | hx
        · exact Or.inr ⟨(k', v), List.mem_cons_self _ _, by rw [hx]⟩
        · rcases ih x hx with h | ⟨y, hy, hyx⟩
          · exact Or.inl h
          · exact Or.inr ⟨y, List.mem_cons_of_mem _ hy, hyx⟩

/-- Updating an entry keeps the keys strictly increasing. -/
theorem StrMap.modify_sorted {α : Type} (k : String) (dflt : α) (f : α → α) (m : StrMap α)
    (hm : m.Pairwise (fun a b => a.1 < b.1)) :
    (StrMap.modify k dflt f m).Pairwise (fun a b => a.1 < b.1) := by
  induction m with
  | nil => simp [StrMap.modify]
  | cons head rest ih =>
    obtain ⟨k', v⟩ := head
    rw [List.pairwise_cons] at hm
    obtain ⟨hhead, hrest⟩ := hm
    unfold StrMap.modify
    by_cases h1 : k = k'
    · simp only [h1, if_true]
      exact List.pairwise_cons.mpr ⟨hhead, hrest⟩
    · by_cases h2 : k < k'
      · simp only [h1, h2, if_true, if_false]
        refine List.pairwise_cons.mpr ⟨?_, List.pairwise_cons.mpr ⟨hhead, hrest⟩⟩
        intro x hx
        rcases List.mem_cons.mp hx with hx | hx
        · rw [hx]; exact h2
        · exact lt_trans h2 (hhead x hx)
      · simp only [h1, h2, if_false]
        have hlt : k' < k := by
          rcases lt_trichotomy k k' with h | h | h
          · exact absurd h h2
          · exact absurd h h1
          · exact h
        refine List.pairwise_cons.mpr ⟨?_, ih hrest⟩
        intro x hx
        rcases StrMap.modify_keys k dflt f rest x hx with h | ⟨y, hy, hyx⟩
        · rw [h]; exact hlt
        · rw [← hyx]; exact hhead y hy

theorem StrMap.lookup_none_of_lt {α : Type} (k : String) (m : StrMap α)
    (h : ∀ x ∈ m, k < x.1) : StrMap.lookup k m = none := by
  induction m with
  | nil => rfl
  | cons head rest ih =>
    obtain ⟨k', v⟩ := head
    have hk : k < k' := h (k', v) (List.mem_cons_self _ _)
    have hne : ¬ k = k' := ne_of_lt hk
    simp only [StrMap.lookup, hne, if_false]
    exact ih (fun x hx => h x (List.mem_cons_of_mem _ hx))

theorem StrMap.lookup_modify_ne {α : Type} (k k' : String) (dflt : α) (f : α → α)
    (m : StrMap α) (hne : k ≠ k') :
    StrMap.lookup k (StrMap.modify k' dflt f m) = StrMap.lookup k m := by
  induction m with
  | nil => simp [StrMap.modify, StrMap.lookup, hne]
  | cons head rest ih =>
    obtain ⟨k2, v⟩ := head
    unfold StrMap.modify
    by_cases h1 : k' = k2
    · have hne2 : ¬ k = k2 := by rw [← h1]; exact hne
      simp [h1, StrMap.lookup, hne2]
    · by_cases h2 : k' < k2
      · simp [h1, h2, StrMap.lookup, hne]
      · simp only [h1, h2, if_false, StrMap.lookup]
        rw [ih]

theorem StrMap.lookup_modify_self {α : Type} (k : String) (dflt : α) (f : α → α)
    (m : StrMap α) (hm : m.Pairwise (fun a b => a.1 < b.1)) :
    StrMap.lookup k (StrMap.modify k dflt f m)
      = some (f ((StrMap.lookup k m).getD dflt)) := by
  induction m with
  | nil => simp [StrMap.modify, StrMap.lookup]
  | cons head rest ih =>
    obtain ⟨k', v⟩ := head
    rw [List.pairwise_cons] at hm
    obtain ⟨hhead, hrest⟩ := hm
    unfold StrMap.modify
    by_cases h1 : k = k'
    · simp [h1, StrMap.lookup]
    · by_cases h2 : k < k'
      · have hnone : StrMap.lookup k rest = none :=
          StrMap.lookup_none_of_lt k rest (fun x hx => lt_trans h2 (hhead x hx))
        simp [h1, h2, StrMap.lookup, hnone]
      · simp only [h1, h2, if_false, StrMap.lookup]
        exact ih hrest

/-- In a map with strictly increasing keys, membership is lookup. -/
theorem StrMap.mem_iff_lookup {α : Type} (m : StrMap α)
    (hm : m.Pairwise (fun a b => a.1 < b.1)) (k : String) (v : α) :
    (k, v) ∈ m ↔ StrMap.lookup k m = some v := by
  induction m with
  | nil => simp [StrMap.lookup]
  | cons head rest ih =>
    obtain ⟨k', v'⟩ := head
    rw [List.pairwise_cons] at hm
    obtain ⟨hhead, hrest⟩ := hm
    by_cases h1 : k = k'
    · subst h1
      simp only [StrMap.lookup, if_true, List.mem_cons, Prod.mk.injEq, true_and,
        Option.some.injEq]
      constructor
      · rintro (h | h)
        · exact h.symm
        · exact absurd (hhead (k, v) h) (lt_irrefl k)
      · intro h
        exact Or.inl h.symm
    · simp only [StrMap.lookup, h1, if_false, List.mem_cons, Prod.mk.injEq, false_and,
        false_or]
      exact ih hrest

/-- Two maps with strictly increasing keys and the same entries are equal. -/
theorem StrMap.ext_of_sorted {α : Type} (m₁ m₂ : StrMap α)
    (h₁ : m₁.Pairwise (fun a b => a.1 < b.1)) (h₂ : m₂.Pairwise (fun a b => a.1 < b.1))
    (h : ∀ k, StrMap.lookup k m₁ = StrMap.lookup k m₂) : m₁ = m₂ := by
  induction m₁ generalizing m₂ with
  | nil =>
    cases m₂ with
    | nil => rfl
    | cons head rest =>
      obtain ⟨k, v⟩ := head
      have := h k
      simp [StrMap.lookup] at this
  | cons head rest ih =>
    obtain ⟨k, v⟩ := head
    cases m₂ with
    | nil =>
      have := h k
      simp [StrMap.lookup] at this
    | cons head₂ rest₂ =>
      obtain ⟨k₂, v₂⟩ := head₂
      rw [List.pairwise_cons] at h₁ h₂
      obtain ⟨hh₁, hr₁⟩ := h₁
      obtain ⟨hh₂, hr₂⟩ := h₂
      have hk : k = k₂ := by
        by_contra hne
        rcases lt_or_gt_of_ne hne with hlt | hgt
        · have e := h k
          have hnone : StrMap.lookup k rest₂ = none :=
            StrMap.lookup_none_of_lt k rest₂ (fun x hx => lt_trans hlt (hh₂ x hx))
          simp [StrMap.lookup, hne, hnone] at e
        · have e := h k₂
          have hnone : StrMap.lookup k₂ rest = none :=
            StrMap.lookup_none_of_lt k₂ rest (fun x hx => lt_trans hgt (hh₁ x hx))
          have hne' : ¬ k₂ = k := fun hh => hne hh.symm
          simp [StrMap.lookup, hne', hnone] at e
      subst hk
      have hv : v = v₂ := by
        have e := h k
        simpa [StrMap.lookup] using e
      subst hv
      have hrest : rest = rest₂ := by
        apply ih rest₂ hr₁ hr₂
        intro k'
        by_cases hk' : k' = k
        · subst hk'
          rw [StrMap.lookup_none_of_lt k' rest hh₁, StrMap.lookup_none_of_lt k' rest₂ hh₂]
        · have e := h k'
          simpa [StrMap.lookup, hk'] using e
      rw [hrest]

theorem filesWithExtension_append_singleton (files : List FileEntry) (entry : FileEntry)
    (ext : String) :
    filesWithExtension (files ++ [entry]) ext
      = if extension entry.filename = ext then filesWithExtension files ext ++ [entry]
        else filesWithExtension files ext := by
  unfold filesWithExtension
  by_cases h : extension entry.filename = ext
  · simp [List.filter_append, h]
  · simp [List.filter_append, h]

theorem extensionCounters_append_of_ne (files : List FileEntry) (entry : FileEntry)
    (ext : String) (h : ¬ extension entry.filename = ext) :
    extensionCounters (files ++ [entry]) ext = extensionCounters files ext := by
  unfold extensionCounters
  rw [filesWithExtension_append_singleton, if_neg h]

theorem extensionCounters_append_self (files : List FileEntry) (entry : FileEntry) :
    extensionCounters (files ++ [entry]) (extension entry.filename)
      = FileStats.add (extensionCounters files (extension entry.filename))
          (fileCounters entry) := by
  unfold extensionCounters
  rw [filesWithExtension_append_singleton, if_pos rfl, List.map_append, List.map_cons,
    List.map_nil, sumCounters_append_singleton]

/-- The state of the walk after any list of files: the number of files with an
extension, keys in strictly increasing order, and under every extension met
the sum of the counters of its files. -/
theorem complexity_state_spec (files : List FileEntry) :
    (files.foldl complexityStep {}).total_files
        = ((files.filter (fun entry => !(extension entry.filename).isEmpty)).length : Int)
      ∧ (files.foldl complexityStep {}).language_stats.Pairwise (fun a b => a.1 < b.1)
      ∧ ∀ k, StrMap.lookup k (files.foldl complexityStep {}).language_stats
          = if k ≠ "" ∧ filesWithExtension files k ≠ [] then some (extensionCounters files k)
            else none := by
  induction files using List.reverseRecOn with
  | nil =>
    refine ⟨rfl, List.Pairwise.nil, ?_⟩
    intro k
    simp [filesWithExtension, StrMap.lookup]
  | append_singleton files entry ih =>
    obtain ⟨ih1, ih2, ih3⟩ := ih
    rw [List.foldl_append, List.foldl_cons, List.foldl_nil]
    generalize files.foldl complexityStep {} = st at ih1 ih2 ih3
    by_cases hext : (extension entry.filename).isEmpty = true
    · have hempty : extension entry.filename = "" := (String.isEmpty_iff _).mp hext
      have hstep : complexityStep st entry = st := by
        simp only [complexityStep, hext, if_true]
      rw [hstep]
      refine ⟨?_, ih2, ?_⟩
      · rw [ih1]
        simp [List.filter_append, hext]
      · intro k
        rw [ih3 k]
        by_cases hk : extension entry.filename = k
        · have hk0 : k = "" := by rw [← hk, hempty]
          simp [hk0]
        · rw [filesWithExtension_append_singleton, if_neg hk,
            extensionCounters_append_of_ne files entry k hk]
    · have hne : extension entry.filename ≠ "" := fun h => hext ((String.isEmpty_iff _).mpr h)
      have hstep : complexityStep st entry
          = { total_files := st.total_files + 1,
              language_stats :=
                StrMap.modify (extension entry.filename) {} (scanFile entry.content)
                  st.language_stats } := by
        simp only [complexityStep, hext, if_false, Bool.false_eq_true]
      rw [hstep]
      refine ⟨?_, StrMap.modify_sorted _ _ _ _ ih2, ?_⟩
      · show st.total_files + 1 = _
        rw [ih1]
        simp [List.filter_append, hext]
      · intro k
        show StrMap.lookup k (StrMap.modify (extension entry.filename) {}
          (scanFile entry.content) st.language_stats) = _
        by_cases hk : extension entry.filename = k
        · subst hk
          rw [StrMap.lookup_modify_self _ _ _ _ ih2, ih3]
          have hval : (if extension entry.filename ≠ ""
                ∧ filesWithExtension files (extension entry.filename) ≠ []
              then some (extensionCounters files (extension entry.filename))
              else none).getD {} = extensionCounters files (extension entry.filename) := by
            by_cases hold : filesWithExtension files (extension entry.filename) = []
            · simp [hold, extensionCounters, sumCounters]
            · simp [hold, hne]
          have hnonempty : filesWithExtension (files ++ [entry]) (extension entry.filename)
              ≠ [] := by
            rw [filesWithExtension_append_singleton, if_pos rfl]
            simp
          rw [hval, scanFile_add, if_pos ⟨hne, hnonempty⟩, extensionCounters_append_self]
          rfl
        · have hk' : k ≠ extension entry.filename := fun h => hk h.symm
          rw [StrMap.lookup_modify_ne _ _ _ _ _ hk', ih3, filesWithExtension_append_singleton,
            if_neg hk, extensionCounters_append_of_ne files entry k hk]

theorem sumCounters_perm {l₁ l₂ : List FileStats} (h : l₁.Perm l₂) :
    sumCounters l₁ = sumCounters l₂ := by
  simp only [sumCounters, (h.map (fun s => s.lines)).sum_eq,
    (h.map (fun s => s.blank_lines)).sum_eq, (h.map (fun s => s.comment_lines)).sum_eq,
    (h.map (fun s => s.functions)).sum_eq, (h.map (fun s => s.classes)).sum_eq]

theorem complexity_state_perm (files files' : List FileEntry) (hperm : files.Perm files') :
    files'.foldl complexityStep {} = files.foldl complexityStep {} := by
  obtain ⟨h1, h2, h3⟩ := complexity_state_spec files
  obtain ⟨h1', h2', h3'⟩ := complexity_state_spec files'
  have htotal : (files'.foldl complexityStep {}).total_files
      = (files.foldl complexityStep {}).total_files := by
    rw [h1, h1', (hperm.filter _).length_eq]
  have hstats : (files'.foldl complexityStep {}).language_stats
      = (files.foldl complexityStep {}).language_stats := by
    apply StrMap.ext_of_sorted _ _ h2' h2
    intro k
    rw [h3 k, h3' k]
    have hfilter : (filesWithExtension files k).Perm (filesWithExtension files' k) :=
      hperm.filter _
    have hcount : extensionCounters files' k = extensionCounters files k := by
      unfold extensionCounters
      exact (sumCounters_perm (hfilter.map fileCounters)).symm
    have hnil : filesWithExtension files' k ≠ [] ↔ filesWithExtension files k ≠ [] := by
      constructor
      · intro h hnil
        rw [hnil] at hfilter
        exact h (List.nil_perm.mp hfilter)
      · intro h hnil
        rw [hnil] at hfilter
        exact h (List.perm_nil.mp hfilter)
    rw [hcount]
    by_cases hc : k ≠ "" ∧ filesWithExtension files k ≠ []
    · rw [if_pos hc, if_pos ⟨hc.1, hnil.mpr hc.2⟩]
    · rw [if_neg hc, if_neg (fun h => hc ⟨h.1, hnil.mp h.2⟩)]
  cases hs : files.foldl complexityStep {} with
  | mk stats total =>
    cases hs' : files'.foldl complexityStep {} with
    | mk stats' total' =>
      rw [hs, hs'] at htotal hstats
      simp only at htotal hstats
      rw [htotal, hstats]

/-- C13: for every list of files and every permutation of it,
`analyze_code_complexity` returns the same result (the same `total_files` and
the same record for every extension); `total_files` counts the files with a
non-empty extension, the extensions reported are exactly the non-empty
extensions of the files, and each extension's `total_lines`, `blank_lines`,
`comment_lines`, `functions` and `classes` are the sums of the per-file counters
of the files with that extension, so that files without extension contribute
to nothing. -/
theorem complexity_order_independent (files files' : List FileEntry)
    (hperm : files.Perm files') :
    analyze_code_complexity files' = analyze_code_complexity files
      ∧ (analyze_code_complexity files).total_files
        = ((files.filter (fun entry => !(extension entry.filename).isEmpty)).length : Int)
      ∧ (∀ ext, (∃ kv ∈ (analyze_code_complexity files).languages, kv.1 = ext)
          ↔ (ext ≠ "" ∧ ∃ entry ∈ files, extension entry.filename = ext))
      ∧ (∀ kv ∈ (analyze_code_complexity files).languages,
          kv.2 = languageRecord (extensionCounters files kv.1)
            ∧ kv.2.total_lines
              = ((filesWithExtension files kv.1).map (fun e => (fileCounters e).lines)).sum
            ∧ kv.2.blank_lines
              = ((filesWithExtension files kv.1).map (fun e => (fileCounters e).blank_lines)).sum
            ∧ kv.2.comment_lines
              = ((filesWithExtension files kv.1).map
                  (fun e => (fileCounters e).comment_lines)).sum
            ∧ kv.2.functions
              = ((filesWithExtension files kv.1).map (fun e => (fileCounters e).functions)).sum
            ∧ kv.2.classes
              = ((filesWithExtension files kv.1).map (fun e => (fileCounters e).classes)).sum) := by
  obtain ⟨h1, h2, h3⟩ := complexity_state_spec files
  have hmem : ∀ kv : String × LanguageStats, kv ∈ (analyze_code_complexity files).languages →
      kv.1 ≠ "" ∧ filesWithExtension files kv.1 ≠ []
        ∧ kv.2 = languageRecord (extensionCounters files kv.1) := by
    intro kv hkv
    simp only [analyze_code_complexity, List.mem_map] at hkv
    obtain ⟨raw, hraw, rfl⟩ := hkv
    have hlook := (StrMap.mem_iff_lookup _ h2 raw.1 raw.2).mp hraw
    rw [h3 raw.1] at hlook
    by_cases hc : raw.1 ≠ "" ∧ filesWithExtension files raw.1 ≠ []
    · rw [if_pos hc] at hlook
      have hv : extensionCounters files raw.1 = raw.2 := Option.some.inj hlook
      exact ⟨hc.1, hc.2, by rw [hv]⟩
    · rw [if_neg hc] at hlook
      exact absurd hlook (by simp)
  have hnonempty : ∀ ext, filesWithExtension files ext ≠ []
      ↔ ∃ entry ∈ files, extension entry.filename = ext := by
    intro ext
    unfold filesWithExtension
    rw [Ne, List.filter_eq_nil_iff]
    simp
  refine ⟨?_, ?_, ?_, ?_⟩
  · simp only [analyze_code_complexity, complexity_state_perm files files' hperm]
  · exact h1
  · intro ext
    constructor
    · rintro ⟨kv, hkv, rfl⟩
      obtain ⟨hne, hfiles, _⟩ := hmem kv hkv
      exact ⟨hne, (hnonempty kv.1).mp hfiles⟩
    · rintro ⟨hne, hfiles⟩
      have hlook := h3 ext
      rw [if_pos ⟨hne, (hnonempty ext).mpr hfiles⟩] at hlook
      have hraw := (StrMap.mem_iff_lookup _ h2 ext _).mpr hlook
      refine ⟨(ext, languageRecord (extensionCounters files ext)), ?_, rfl⟩
      simp only [analyze_code_complexity, List.mem_map]
      exact ⟨(ext, extensionCounters files ext), hraw, rfl⟩
  · intro kv hkv
    obtain ⟨_, _, hrec⟩ := hmem kv hkv
    refine ⟨hrec, ?_, ?_, ?_, ?_, ?_⟩ <;>
      · rw [hrec]
        simp only [languageRecord, extensionCounters, sumCounters, List.map_map]
        rfl

/-- The four files of `sampleWalk` in two orders: three files counted, two
extensions, the same result. -/
theorem complexity_order_independent_witness :
    sampleWalk.Perm sampleWalkReordered
      ∧ analyze_code_complexity sampleWalkReordered = analyze_code_complexity sampleWalk
      ∧ (analyze_code_complexity sampleWalk).total_files = 3
      ∧ (analyze_code_complexity sampleWalk).languages.map (fun kv => (kv.1, kv.2.total_lines))
        = [(".cpp", 2), (".py", 5)] := by
  have hperm : sampleWalk.Perm sampleWalkReordered := by decide
  have h := complexity_order_independent sampleWalk sampleWalkReordered hperm
  exact ⟨hperm, h.1, by rw [h.2.1]; decide, by decide!⟩

end GitGrade
